import Mathlib

/-!
# Verification of the DataMigration core

This file gives a shallow embedding, in Lean 4, of the core of the
DataMigration repository (a MongoDB → MySQL replicator) and proves or
refutes the specified properties of its three modules:

* `modules/type_converter.py` — sample-based MySQL type inference;
* `modules/flattener.py`      — nested-document flattening (pandas
  `json_normalize` / `explode` loop);
* `modules/mysql_loader.py`   — fingerprint-based reconciliation
  (`_upsert_by_id`), bulk insert (`_insert_bulk`), the count-based
  deletion sweep (`mark_deleted_documents`) and `load_dataframe`.

Modelling conventions:

* Python cell values are modelled by the inductive type `PVal`
  (`None`, `bool`, `int`, `float`, `str`, pandas `Timestamp`).  Python
  floats are idealised as rationals; `float("nan")` and other
  non-finite floats are outside the model.  `str(v)` is modelled by
  `valStr`; its value on floats and timestamps is a stand-in rendering
  (the claims below never depend on the exact text of those cases),
  while on `None`/`bool`/`int`/`str` it matches Python exactly —
  including the `str(True) = "True" = str("True")` collision.
* A MySQL table is a list of rows in physical order; `id` is the
  table's PRIMARY KEY, so any reachable table state has pairwise
  distinct `id` values (taken as a hypothesis where needed).  Row cell
  lists are aligned with the current load's sanitized column list, the
  exact set of columns every SQL statement of `_upsert_by_id` reads
  and writes.
* `SELECT ... ORDER BY id` is modelled by a (stable) insertion sort;
  `UPDATE ... WHERE id = x` by a map touching the rows whose `id`
  matches; `INSERT` by appending.
-/

set_option linter.unusedVariables false

namespace DataMigration

/-- A Python value as it occurs in a DataFrame cell after
`prepare_dataframe_for_mysql` (ObjectIds already stringified, NaN
normalised to `None`).  Floats are idealised as rationals. -/
inductive PVal where
  | pNone : PVal
  | pBool : Bool → PVal
  | pInt : Int → PVal
  | pFloat : Rat → PVal
  | pStr : String → PVal
  | pTimestamp : Nat → PVal
deriving DecidableEq, Repr

/-- Python `str(v)`.  Exact on `None`, `bool`, `int` and `str`;
injective stand-in renderings for floats and timestamps. -/
def valStr : PVal → String
  | .pNone => "None"
  | .pBool true => "True"
  | .pBool false => "False"
  | .pInt n => toString n
  | .pFloat q => if q.den = 1 then toString q.num ++ ".0" else toString q.num ++ "/" ++ toString q.den
  | .pStr s => s
  | .pTimestamp t => "Timestamp(" ++ toString t ++ ")"

/-- Is a Python float integral (`float.is_integer`)? -/
def ratIsInteger (q : Rat) : Bool := q.den == 1

/-! ## `modules/type_converter.py` -/

/-- `infer_mysql_type(series)` from `modules/type_converter.py`.

`vals` is the column's sample values in row order; `isDatetimeDtype`
models `pd.api.types.is_datetime64_any_dtype(series)`, a property of
the pandas column dtype, not of individual values (in the
`load_dataframe` path it is always `false` because
`prepare_dataframe_for_mysql` casts every column to `object` dtype).

Python's `isinstance(sample, bool)` is tested before
`isinstance(sample, int)`, mirroring that `bool` is a subclass of
`int`. -/
def infer_mysql_type (vals : List PVal) (isDatetimeDtype : Bool) : String :=
  -- series = series.dropna()
  let s := vals.filter (fun v => v ≠ PVal.pNone)
  match s with
  | [] => "TEXT"
  | sample :: _ =>
    match sample with
    | .pBool _ => "TINYINT(1)"
    | .pInt _ => "BIGINT"
    | .pFloat _ =>
      if s.all (fun v => match v with | .pFloat q => ratIsInteger q | _ => false) then
        "BIGINT"
      else
        "DECIMAL(20,6)"
    | _ =>
      if isDatetimeDtype then
        "DATETIME"
      else
        match sample with
        | .pStr _ =>
          -- max_len = series.astype(str).str.len().max()
          let maxLen := (s.map (fun v => (valStr v).length)).foldl max 0
          if maxLen ≤ 255 then
            "VARCHAR(" ++ toString (min (maxLen + 50) 255) ++ ")"
          else
            "TEXT"
        | _ => "TEXT"

/-- The observed maximum string length of the non-null sample
(`series.astype(str).str.len().max()` after `dropna`). -/
def maxStrLen (vals : List PVal) : Nat :=
  ((vals.filter (fun v => v ≠ PVal.pNone)).map (fun v => (valStr v).length)).foldl max 0

/-! ## `modules/flattener.py`

The flattener runs before type conversion, on raw nested documents, so
its cell values may be nested Python dicts and lists.  They are
modelled by `FVal`: `null` stands for both `None` and the `NaN` that
pandas introduces for missing sub-fields and exploded empty lists;
`scalar` abstracts every non-dict, non-list, non-null value.

A DataFrame is modelled column-wise, as pandas stores it: a list of
(column name, cell values) pairs, all value lists of equal length
(one entry per row). -/

/-- A (possibly nested) cell value of the raw document DataFrame. -/
inductive FVal where
  | null : FVal
  | scalar : String → FVal
  | dict : List (String × FVal) → FVal
  | pyList : List FVal → FVal

/-- `isinstance(x, dict)`. -/
def isDict : FVal → Bool
  | .dict _ => true
  | _ => false

/-- `isinstance(x, list) and len(x) > 0`. -/
def isNonemptyList : FVal → Bool
  | .pyList (_ :: _) => true
  | _ => false

/-- A raw DataFrame, column-wise: (column name, one value per row). -/
abbrev Df := List (String × List FVal)

/-- First-occurrence-order deduplication (`pandas.unique` /
`dict.fromkeys` ordering). -/
def uniqueFirst {α : Type} [DecidableEq α] : List α → List α
  | [] => []
  | a :: l => a :: (uniqueFirst l).filter (fun b => b ≠ a)

/-- The record that `pd.json_normalize` sees for one cell: the dict
itself, with every non-dict value coerced to `{}`
(`x if isinstance(x, dict) else {}`). -/
def recordOf : FVal → List (String × FVal)
  | .dict fs => fs
  | _ => []

/-- The recursive key flattening performed by `pd.json_normalize`:
nested dicts become dot-joined column paths; lists and scalars are
kept as values. -/
def normalizePairs : List (String × FVal) → List (String × FVal)
  | [] => []
  | (k, FVal.dict fs) :: rest =>
    (normalizePairs fs).map (fun p => (k ++ "." ++ p.1, p.2)) ++ normalizePairs rest
  | (k, v) :: rest => (k, v) :: normalizePairs rest

/-- Key lookup in a flattened record; a missing key yields `NaN`
(modelled `FVal.null`), as `json_normalize` fills absent sub-fields. -/
def pairsLookup (ps : List (String × FVal)) (k : String) : FVal :=
  match ps.find? (fun p => p.1 == k) with
  | some p => p.2
  | none => FVal.null

/-- The column list of `pd.json_normalize(records)`: flattened keys in
first-appearance order across the records. -/
def jnCols (records : List (List (String × FVal))) : List String :=
  uniqueFirst ((records.map (fun r => (normalizePairs r).map (fun p => p.1))).flatten)

/-- The values of a named column (`df[col]`). -/
def dfGetCol (df : Df) (cn : String) : List FVal :=
  match df.find? (fun p => p.1 == cn) with
  | some p => p.2
  | none => []

/-- One iteration of the dict-column loop of `flatten_dataframe`:
normalize column `cn` into `cn_<key>` sub-columns, drop `cn`, and
append the sub-columns at the end (`df.drop` followed by
`pd.concat([df, normalized], axis=1)`). -/
def expandDictColAt (df : Df) (cn : String) : Df :=
  let records := (dfGetCol df cn).map recordOf
  let newCols := (jnCols records).map
    (fun k => (cn ++ "_" ++ k, records.map (fun r => pairsLookup (normalizePairs r) k)))
  (df.filter (fun p => p.1 ≠ cn)) ++ newCols

/-- `x if isinstance(x, list) else [x]`. -/
def wrapVal : FVal → FVal
  | .pyList l => .pyList l
  | v => .pyList [v]

/-- `df[col] = df[col].apply(lambda x: x if isinstance(x, list) else [x])`. -/
def wrapCol (df : Df) (cn : String) : Df :=
  df.map (fun p => if p.1 == cn then (p.1, p.2.map wrapVal) else p)

/-- How many result rows a cell produces under `DataFrame.explode`:
one per element of a non-empty list, one (`NaN`) for an empty list,
one (unchanged) for a non-list. -/
def explodeCount : FVal → Nat
  | .pyList [] => 1
  | .pyList l => l.length
  | _ => 1

/-- The cell values a cell produces under `DataFrame.explode`: pandas
keeps a row with an empty list, replacing the value by `NaN`. -/
def explodeElems : FVal → List FVal
  | .pyList [] => [FVal.null]
  | .pyList l => l
  | v => [v]

/-- Replicate each value of a non-exploded column as many times as the
exploded column multiplies its row. -/
def replicateBy : List Nat → List FVal → List FVal
  | n :: ns, v :: vs => List.replicate n v ++ replicateBy ns vs
  | _, _ => []

/-- `df = df.explode(col, ignore_index=True)`. -/
def explodeCol (df : Df) (cn : String) : Df :=
  let counts := (dfGetCol df cn).map explodeCount
  df.map (fun p =>
    if p.1 == cn then (p.1, p.2.flatMap explodeElems)
    else (p.1, replicateBy counts p.2))

/-- One iteration of the `while changed` body of `flatten_dataframe`:
expand every dict-holding column, then — if any column holds a
non-empty list — wrap all their values into lists and explode those
columns one at a time.  Returns the new frame and the `changed`
flag. -/
def flattenPass (df : Df) : Df × Bool :=
  let dictCols := (df.filter (fun p => p.2.any isDict)).map (fun p => p.1)
  let df1 := dictCols.foldl expandDictColAt df
  let changed1 := !dictCols.isEmpty
  let listCols := (df1.filter (fun p => p.2.any isNonemptyList)).map (fun p => p.1)
  if listCols.isEmpty then (df1, changed1)
  else
    let df2 := listCols.foldl wrapCol df1
    (listCols.foldl explodeCol df2, true)

/-- The `while changed` loop, as fuel-bounded iteration. -/
def flattenLoop : Nat → Df → Df
  | 0, df => df
  | n + 1, df =>
    let r := flattenPass df
    if r.2 then flattenLoop n r.1 else r.1

mutual
/-- Structural size of an `FVal`. -/
def fvalSize : FVal → Nat
  | .null => 1
  | .scalar _ => 1
  | .dict fs => 1 + fpairsSize fs
  | .pyList l => 1 + flistSize l

/-- Structural size of a record. -/
def fpairsSize : List (String × FVal) → Nat
  | [] => 0
  | (_, v) :: r => 1 + fvalSize v + fpairsSize r

/-- Structural size of a value list. -/
def flistSize : List FVal → Nat
  | [] => 0
  | v :: r => 1 + fvalSize v + flistSize r
end

/-- Fuel bound for the loop: each `changed` pass strictly reduces the
total nested structure of the frame (the spec's §4.1 termination
argument), so the total structural size bounds the number of passes.
The theorems below additionally prove that the loop has reached a
fixpoint (`flattenPass` reports no change), so the exact bound is
immaterial to the stated results. -/
def dfFuel (df : Df) : Nat :=
  1 + df.foldl (fun a p => a + flistSize p.2) 0

/-- `flatten_dataframe(df)` from `modules/flattener.py`. -/
def flatten_dataframe (df : Df) : Df :=
  flattenLoop (dfFuel df) df

/-! ## `modules/mysql_loader.py`

The destination table is a list of `DbRow`s in physical order.  Each
row carries its surrogate `id` (the `INT PRIMARY KEY`), its soft-delete
flag, and one cell per sanitized data column of the current load
(`sanitized_cols`), in column order — exactly the columns every SQL
statement of `_upsert_by_id` selects, updates and inserts. -/

/-- A Destination Row. -/
structure DbRow where
  id : Nat
  vals : List PVal
  is_deleted : Bool
deriving DecidableEq, Repr

/-- The destination table, in physical row order. -/
abbrev Table := List DbRow

/-- An incoming DataFrame row (`row.values.tolist()`), aligned with
`sanitized_cols`. -/
abbrev DRow := List PVal

/-- Python `dict(zip(keys, vals))` lookup: `zip` truncates to the
shorter list and a duplicated key keeps its last value. -/
def dlookup (d : List (String × PVal)) (c : String) : Option PVal :=
  (d.reverse.find? (fun p => p.1 == c)).map (fun p => p.2)

/-- Columns excluded from fingerprints
(`fp_exclude = {"id", "is_deleted", "updated_at"}`). -/
def fpExclude : List String := ["id", "is_deleted", "updated_at"]

/-- `fp_cols = [c for c in sanitized_cols if c not in fp_exclude]`. -/
def fpColsOf (cols : List String) : List String :=
  cols.filter (fun c => !(fpExclude.contains c))

/-- `str(row_dict.get(c))`: a missing key gives `None`, whose `str` is
`"None"`. -/
def strOfCell : Option PVal → String
  | none => "None"
  | some v => valStr v

/-- `_row_fingerprint(row_dict, fp_cols)`:
`"||".join(str(row_dict.get(c)) for c in fp_cols)`. -/
def rowFp (fpCols : List String) (d : List (String × PVal)) : String :=
  String.intercalate "||" (fpCols.map (fun c => strOfCell (dlookup d c)))

/-- `dict(zip(["id"] + sanitized_cols, erow))` for a fetched row. -/
def dbRowDict (cols : List String) (r : DbRow) : List (String × PVal) :=
  ("id", PVal.pInt (Int.ofNat r.id)) :: cols.zip r.vals

/-- `dict(zip(sanitized_cols, row.values.tolist()))` for an incoming
row. -/
def dfRowDict (cols : List String) (row : DRow) : List (String × PVal) :=
  cols.zip row

/-- Fingerprint of a stored row as `_upsert_by_id` computes it. -/
def dbRowFp (cols : List String) (r : DbRow) : String :=
  rowFp (fpColsOf cols) (dbRowDict cols r)

/-- Fingerprint of an incoming row as `_upsert_by_id` computes it. -/
def dfRowFp (cols : List String) (row : DRow) : String :=
  rowFp (fpColsOf cols) (dfRowDict cols row)

/-- The natural-key cell of a stored row (its `_id` column). -/
def dbRowUid (cols : List String) (r : DbRow) : Option PVal :=
  dlookup (dbRowDict cols r) "_id"

/-- The natural-key cell of an incoming row (`df["_id"]`). -/
def dfRowUid (cols : List String) (row : DRow) : Option PVal :=
  dlookup (dfRowDict cols row) "_id"

/-- Stable insertion sort by ascending surrogate identifier
(`ORDER BY id`). -/
def insertById (r : DbRow) : Table → Table
  | [] => [r]
  | s :: t => if r.id ≤ s.id then r :: s :: t else s :: insertById r t

/-- `ORDER BY id` over a row list. -/
def sortById (l : Table) : Table :=
  l.foldr insertById []

/-- The `SELECT id, ... WHERE _id = uid AND is_deleted = 0 ORDER BY id`
of `_upsert_by_id`. -/
def selectActive (cols : List String) (T : Table) (uid : Option PVal) : Table :=
  sortById (T.filter (fun r => dbRowUid cols r == uid && r.is_deleted == false))

/-- `existing_fp_map`: fingerprint → FIFO list of surrogate ids, in
insertion order (a Python dict preserves it). -/
abbrev FpMap := List (String × List Nat)

/-- `existing_fp_map.get(fp, [])`. -/
def fpMapGet (m : FpMap) (fp : String) : List Nat :=
  match m.find? (fun p => p.1 == fp) with
  | some p => p.2
  | none => []

/-- `existing_fp_map.setdefault(fp, []).append(i)`. -/
def fpMapAppend (m : FpMap) (fp : String) (i : Nat) : FpMap :=
  if m.any (fun p => p.1 == fp) then
    m.map (fun p => if p.1 == fp then (p.1, p.2 ++ [i]) else p)
  else
    m ++ [(fp, [i])]

/-- `existing_fp_map[fp].pop(0)` (the popped value is read off
separately with `fpMapGet`). -/
def fpMapPop (m : FpMap) (fp : String) : FpMap :=
  m.map (fun p => if p.1 == fp then (p.1, p.2.tail) else p)

/-- Building `existing_fp_map` from the fetched active rows. -/
def buildFpMap (cols : List String) (existing : Table) : FpMap :=
  existing.foldl (fun m r => fpMapAppend m (dbRowFp cols r) r.id) []

/-- Overwrite a named column of a stored row's cell list
(`UPDATE ... SET c = v`). -/
def setColVal (cols : List String) (c : String) (v : PVal) (vals : List PVal) : List PVal :=
  ((cols.zip vals).map (fun p => if p.1 == c then v else p.2))

/-- `UPDATE ... WHERE id = i`, applied to every row whose primary key
matches (at most one in any reachable state). -/
def updateById (T : Table) (i : Nat) (f : DbRow → DbRow) : Table :=
  T.map (fun r => if r.id == i then f r else r)

/-- The row transformation of the fingerprint-match `UPDATE`: force
`is_deleted = 0` and, when the schema carries `updated_at`, refresh it
from the incoming row (`row_dict.get("updated_at")`; a missing key is
`None`). -/
def matchFn (cols : List String) (row : DRow) (r : DbRow) : DbRow :=
  if cols.contains "updated_at" then
    { r with
      is_deleted := false
      vals := setColVal cols "updated_at"
        ((dlookup (dfRowDict cols row) "updated_at").getD PVal.pNone) r.vals }
  else
    { r with is_deleted := false }

/-- The fingerprint-match `UPDATE ... WHERE id = i`. -/
def matchedUpdate (cols : List String) (row : DRow) (i : Nat) (T : Table) : Table :=
  updateById T i (matchFn cols row)

/-- State threaded through the per-incoming-row loop (step 3 of
`_upsert_by_id`): the fingerprint map, the matched-id set, the pending
rows, and the table with the updates applied so far. -/
structure MatchSt where
  m : FpMap
  matched : List Nat
  pending : List DRow
  T : Table

/-- One iteration of step 3: match the incoming row's fingerprint
against the FIFO map, or defer it to the pending list. -/
def matchStep (cols : List String) (st : MatchSt) (row : DRow) : MatchSt :=
  let fp := dfRowFp cols row
  match fpMapGet st.m fp with
  | [] => { st with pending := st.pending ++ [row] }
  | i :: _ =>
    { st with
      m := fpMapPop st.m fp
      matched := st.matched ++ [i]
      T := matchedUpdate cols row i st.T }

/-- `COALESCE(MAX(id), 0)` — depends only on the stored ids. -/
def maxId (T : Table) : Nat :=
  (T.map (fun r => r.id)).foldl max 0

/-- The row transformation of the spare-slot overwrite `UPDATE`: every
data column is set from the incoming row and `is_deleted` forced
to 0. -/
def owFn (row : DRow) (r : DbRow) : DbRow :=
  { r with vals := row, is_deleted := false }

/-- The spare-slot overwrite `UPDATE ... WHERE id = i`. -/
def overwriteRow (cols : List String) (row : DRow) (i : Nat) (T : Table) : Table :=
  updateById T i (owFn row)

/-- One iteration of step 5: reuse the oldest spare slot, or insert a
brand-new row with id `MAX(id) + 1`. -/
def slotStep (cols : List String) (acc : List Nat × Table) (row : DRow) : List Nat × Table :=
  match acc.1 with
  | i :: rest => (rest, overwriteRow cols row i acc.2)
  | [] => ([], acc.2 ++ [⟨maxId acc.2 + 1, row, false⟩])

/-- The row transformation of step 6's soft-delete `UPDATE`. -/
def sdFn (ids : List Nat) (r : DbRow) : DbRow :=
  if ids.contains r.id then { r with is_deleted := true } else r

/-- Step 6: `UPDATE ... SET is_deleted = 1 WHERE id IN spare_ids`. -/
def softDeleteIds (T : Table) (ids : List Nat) : Table :=
  T.map (sdFn ids)

/-- The whole per-`_id` body of `_upsert_by_id` for one natural-key
value `uid` with incoming rows `rows` (in DataFrame order). -/
def processUid (cols : List String) (T : Table) (uid : Option PVal) (rows : List DRow) : Table :=
  let existing := selectActive cols T uid
  let st := rows.foldl (matchStep cols) ⟨buildFpMap cols existing, [], [], T⟩
  let spare := (existing.map (fun r => r.id)).filter (fun i => !(st.matched.contains i))
  let res := st.pending.foldl (slotStep cols) (spare, st.T)
  if res.1.isEmpty then res.2 else softDeleteIds res.2 res.1

/-- `df["_id"].unique()`: the distinct natural keys in first-occurrence
order. -/
def uniqueUids (cols : List String) (df : List DRow) : List (Option PVal) :=
  uniqueFirst (df.map (dfRowUid cols))

/-- `_upsert_by_id(cur, table_name, df, sanitized_cols)`. -/
def upsert_by_id (cols : List String) (T : Table) (df : List DRow) : Table :=
  (uniqueUids cols df).foldl
    (fun t uid => processUid cols t uid (df.filter (fun r => dfRowUid cols r == uid))) T

/-- `_insert_bulk(cur, table_name, df, sanitized_cols)`: one
`MAX(id)` query, then a consecutive block of brand-new rows. -/
def insert_bulk (T : Table) (df : List DRow) : Table :=
  let nid := maxId T + 1
  T ++ (df.enum.map (fun p => ⟨nid + p.1, p.2, false⟩))

/-- `mark_deleted_documents(table_name, mongo_ids, mysql_config)`.
`mongoIds` holds `str(mid)` for each source key; the destination key
set is `{str(row[0])}` over the active rows.  Both are Python sets,
modelled as first-occurrence deduplicated lists (only cardinality and
membership are consumed). -/
def mark_deleted_documents (cols : List String) (mongoIds : List String) (T : Table) : Table :=
  let mongoSet := uniqueFirst mongoIds
  let mysqlSet := uniqueFirst
    ((T.filter (fun r => r.is_deleted == false)).map (fun r => strOfCell (dbRowUid cols r)))
  if mongoSet.length ≠ mysqlSet.length then
    let deletedIds := mysqlSet.filter (fun s => !(mongoSet.contains s))
    if deletedIds.isEmpty then T
    else
      T.map (fun r =>
        if deletedIds.contains (strOfCell (dbRowUid cols r)) && r.is_deleted == false then
          { r with is_deleted := true }
        else r)
  else T

/-! ### `load_dataframe`

The destination state for one collection: `none` when the table does
not exist yet, otherwise the table's column list (as `DESCRIBE`
reports it) together with its rows.  Index bookkeeping (`idx_id`, the
stale `unique_id` index) is outside the modelled state: creating or
dropping an index touches no row and no column. -/

/-- The destination-side state of one collection's table. -/
structure DbTableState where
  schemaCols : List String
  rows : Table
deriving Repr

/-- `sanitize_column_name(col)`. -/
def sanitize_column_name (c : String) : String :=
  (((c.replace "." "_").replace " " "_").replace "-" "_").replace "$" ""

/-- `get_column_types(df)`: per column, `infer_mysql_type` on its
values.  In this path every column has `object` dtype
(`prepare_dataframe_for_mysql` runs `df.astype(object)` first), so the
`is_datetime64_any_dtype` test is `false`. -/
def get_column_types (cols : List String) (rows : List DRow) : List (String × String) :=
  cols.enum.map (fun p => (p.2, infer_mysql_type (rows.map (fun r => r.getD p.1 PVal.pNone)) false))

/-- `_ensure_table`: `CREATE TABLE` with the surrogate `id` primary
key, all data columns, and the `is_deleted` flag. -/
def ensure_table (sanitizedCols : List String) : DbTableState :=
  ⟨"id" :: sanitizedCols ++ ["is_deleted"], []⟩

/-- `_evolve_schema`: `ADD COLUMN` for each missing data column, then
for `is_deleted` if missing.  Rows are untouched (a MySQL
`ADD COLUMN` fills existing rows with the column default). -/
def evolve_schema (sanitizedCols : List String) (t : DbTableState) : DbTableState :=
  let withNew := t.schemaCols ++ sanitizedCols.filter (fun c => !(t.schemaCols.contains c))
  let withFlag := if withNew.contains "is_deleted" then withNew else withNew ++ ["is_deleted"]
  ⟨withFlag, t.rows⟩

/-- `load_dataframe(table_name, df, mysql_config)`:  an empty frame
returns before the MySQL connection is even opened; otherwise prepare
the frame, create or evolve the table, and reconcile by `_id` (or bulk
insert when no `_id` column exists).  `prepare_dataframe_for_mysql` is
the identity on the modelled values (ObjectIds are already strings and
non-finite floats are outside the model). -/
def load_dataframe (dfCols : List String) (dfRows : List DRow) (st : Option DbTableState) :
    Option DbTableState :=
  if dfRows.isEmpty || dfCols.isEmpty then st
  else
    let sCols := dfCols.map sanitize_column_name
    let t := match st with
      | none => ensure_table sCols
      | some t0 => evolve_schema sCols t0
    if sCols.contains "_id" then
      some ⟨t.schemaCols, upsert_by_id sCols t.rows dfRows⟩
    else
      some ⟨t.schemaCols, insert_bulk t.rows dfRows⟩

/-! ## Verification infrastructure

Derived observation functions and the pure "decision" views of
`_upsert_by_id`'s loops, used to state and prove the reconciliation
theorems.  All are definable from the embedding above; the theorems
below prove the loops equal to these views. -/

/-- The surrogate identifiers of a table, in physical order. -/
def idsOf (T : Table) : List Nat :=
  T.map (fun r => r.id)

/-- A consecutive identifier block `[s, s+1, ..., s+n-1]`. -/
def blockFrom (s n : Nat) : List Nat :=
  (List.range n).map (fun j => s + j)

/-- The number of active rows a table holds for natural key `k`. -/
def activeCount (cols : List String) (k : Option PVal) (T : Table) : Nat :=
  T.countP (fun r => dbRowUid cols r == k && r.is_deleted == false)

/-- The number of active rows a table holds for natural key `k` whose
content fingerprint is `fp`. -/
def activeFpCount (cols : List String) (k : Option PVal) (fp : String) (T : Table) : Nat :=
  T.countP (fun r => dbRowUid cols r == k && r.is_deleted == false && dbRowFp cols r == fp)

/-- All surrogate identifiers queued in a fingerprint map. -/
def fpMapIds (m : FpMap) : List Nat :=
  (m.map (fun p => p.2)).flatten

/-- Apply a list of per-identifier row updates: each pair `(i, row)`
rewrites the rows whose `id` is `i` through `fn row`. -/
def applyPairs (fn : DRow → DbRow → DbRow) (ps : List (Nat × DRow)) (r : DbRow) : DbRow :=
  ps.foldl (fun r' p => if r'.id == p.1 then fn p.2 r' else r') r

/-- The pure decision content of step 3 of `_upsert_by_id`: from a
fingerprint map and the incoming rows, the final map, the matched
(identifier, incoming row) pairs, and the pending rows, in order. -/
def mlDecide (cols : List String) (m : FpMap) :
    List DRow → FpMap × List (Nat × DRow) × List DRow
  | [] => (m, [], [])
  | row :: rest =>
    match fpMapGet m (dfRowFp cols row) with
    | [] =>
      let r := mlDecide cols m rest
      (r.1, r.2.1, row :: r.2.2)
    | i :: _ =>
      let r := mlDecide cols (fpMapPop m (dfRowFp cols row)) rest
      (r.1, (i, row) :: r.2.1, r.2.2)

/-- Sequential brand-new insertion: each row is appended with
identifier `MAX(id) + 1` of the table as it stands. -/
def appendNew (T : Table) (rows : List DRow) : Table :=
  rows.foldl (fun t row => t ++ [⟨maxId t + 1, row, false⟩]) T

/-- The rows `appendNew` produces, starting one past `b`. -/
def newRowsFrom (b : Nat) : List DRow → Table
  | [] => []
  | row :: rest => ⟨b + 1, row, false⟩ :: newRowsFrom (b + 1) rest

/-- The destination-side key set the deletion sweep compares against:
`{str(row[0])}` over the active rows (first-occurrence order). -/
def mysqlKeySet (cols : List String) (T : Table) : List String :=
  uniqueFirst ((T.filter (fun r => r.is_deleted == false)).map (fun r => strOfCell (dbRowUid cols r)))

/-- The fingerprint keys of a fingerprint map. -/
def fpKeys (m : FpMap) : List String :=
  m.map (fun p => p.1)

/-- Apply a list of per-identifier updates in order: each `(i, row)`
rewrites the rows whose `id` is `i` through `fn row`. -/
def applyUpdates (fn : DRow → DbRow → DbRow) (ps : List (Nat × DRow)) (T : Table) : Table :=
  ps.foldl (fun t p => updateById t p.1 (fn p.2)) T

/-- The pure view of one `processUid` call: match `UPDATE`s, then the
spare-slot overwrites, then the brand-new insert block, then the final
soft-delete of the unconsumed spare identifiers.  `processUid` is
proved equal to this view below. -/
def processUidView (cols : List String) (T : Table) (uid : Option PVal) (rows : List DRow) :
    Table :=
  let existing := selectActive cols T uid
  let dec := mlDecide cols (buildFpMap cols existing) rows
  let spare := (existing.map (fun r => r.id)).filter
    (fun i => !((dec.2.1.map (fun p => p.1)).contains i))
  let T2 := applyUpdates owFn (spare.zip dec.2.2) (applyUpdates (matchFn cols) dec.2.1 T)
  softDeleteIds (T2 ++ newRowsFrom (maxId T2) (dec.2.2.drop spare.length))
    (spare.drop dec.2.2.length)

/-- The stored rows of an optional table state (`[]` when the table
does not exist yet). -/
def rowsOf : Option DbTableState → Table
  | none => []
  | some t => t.rows

/-! ## Basic lemmas -/

theorem uniqueFirst_mem {α : Type} [DecidableEq α] {a : α} :
    ∀ {l : List α}, a ∈ uniqueFirst l ↔ a ∈ l := by
  intro l
  induction l with
  | nil => simp [uniqueFirst]
  | cons b l ih =>
    by_cases hab : a = b
    · subst hab; simp [uniqueFirst]
    · simp [uniqueFirst, List.mem_filter, hab, ih]

theorem uniqueFirst_nodup {α : Type} [DecidableEq α] :
    ∀ (l : List α), (uniqueFirst l).Nodup := by
  intro l
  induction l with
  | nil => simp [uniqueFirst]
  | cons b l ih =>
    refine List.Nodup.cons ?_ (List.Nodup.filter _ ih)
    intro hmem
    have h := List.of_mem_filter hmem
    simp at h

/-! ## Claim C6: the deletion sweep -/

/-- **C6** (deletion sweep contract and its documented limitation).
`mark_deleted_documents` takes no action whenever the deduplicated
source key set and the set of currently active destination keys have
equal cardinality — even when their contents differ (the source and
destination key lists below are unconstrained) — and in general it
rewrites exactly the currently active rows whose key is absent from
the source set to `is_deleted = 1`, leaving every other row
unchanged. -/
theorem mark_deleted_documents_contract (cols : List String) (ids : List String) (T : Table) :
    ((uniqueFirst ids).length = (mysqlKeySet cols T).length →
      mark_deleted_documents cols ids T = T)
    ∧ mark_deleted_documents cols ids T =
        T.map (fun r =>
          if (uniqueFirst ids).length ≠ (mysqlKeySet cols T).length
              ∧ r.is_deleted = false
              ∧ strOfCell (dbRowUid cols r) ∉ ids then
            { r with is_deleted := true }
          else r) := by
  have hmysql : ∀ r ∈ T, r.is_deleted = false →
      strOfCell (dbRowUid cols r) ∈ mysqlKeySet cols T := by
    intro r hr hact
    rw [mysqlKeySet, uniqueFirst_mem]
    exact List.mem_map_of_mem _ (List.mem_filter.2 ⟨hr, by simp [hact]⟩)
  constructor
  · intro h
    rw [mark_deleted_documents, mysqlKeySet] at *
    rw [if_neg (by simpa using h)]
  · by_cases hlen : (uniqueFirst ids).length = (mysqlKeySet cols T).length
    · rw [mark_deleted_documents, mysqlKeySet] at *
      rw [if_neg (by simpa using hlen)]
      rw [← mysqlKeySet]
      nth_rewrite 1 [← List.map_id T]
      apply List.map_congr_left
      intro r hr
      rw [if_neg]
      simp only [id]
      tauto
    · rw [mark_deleted_documents]
      rw [← mysqlKeySet, if_pos (by simpa using hlen)]
      by_cases hdel : ((mysqlKeySet cols T).filter
          (fun s => !((uniqueFirst ids).contains s))).isEmpty
      · rw [if_pos hdel]
        have hall : ∀ s ∈ mysqlKeySet cols T, s ∈ ids := by
          intro s hs
          have := List.filter_eq_nil_iff.1 (List.isEmpty_iff.1 hdel) s hs
          simpa [uniqueFirst_mem] using this
        nth_rewrite 1 [← List.map_id T]
        apply List.map_congr_left
        intro r hr
        rw [if_neg]
        · simp only [id]
        · rintro ⟨-, hact, habs⟩
          exact habs (hall _ (hmysql r hr hact))
      · rw [if_neg hdel]
        apply List.map_congr_left
        intro r hr
        by_cases hact : r.is_deleted = false
        · by_cases habs : strOfCell (dbRowUid cols r) ∈ ids
          · rw [if_neg, if_neg]
            · rintro ⟨-, -, h3⟩; exact h3 habs
            · simp only [Bool.and_eq_true, beq_iff_eq, List.mem_filter]
              rintro ⟨hc, -⟩
              have := List.of_mem_filter (List.mem_of_elem_eq_true hc)
              simp [uniqueFirst_mem] at this
              exact this habs
          · rw [if_pos, if_pos]
            · exact ⟨hlen, hact, habs⟩
            · simp only [Bool.and_eq_true, beq_iff_eq]
              refine ⟨?_, hact⟩
              apply List.elem_eq_true_of_mem
              apply List.mem_filter.2
              refine ⟨hmysql r hr hact, ?_⟩
              simp [uniqueFirst_mem, habs]
        · rw [if_neg, if_neg]
          · rintro ⟨-, h2, -⟩; exact hact h2
          · simp [hact]

/-- Concrete instance of the C6 limitation: the source set `{"m"}` and
the active destination key set `{"k"}` differ in content but have
equal cardinality, so the sweep takes no action and key `"k"` stays
active although it is absent from the source. -/
theorem mark_deleted_documents_contract_witness :
    mark_deleted_documents ["_id", "a"] ["m"] [⟨1, [PVal.pStr "k", PVal.pStr "x"], false⟩] =
      [⟨1, [PVal.pStr "k", PVal.pStr "x"], false⟩] :=
  (mark_deleted_documents_contract ["_id", "a"] ["m"]
    [⟨1, [PVal.pStr "k", PVal.pStr "x"], false⟩]).1 (by decide)

/-! ## Claim C10: `load_dataframe` on an empty row-set -/

/-- **C10** (empty-frame no-op).  `load_dataframe` called with an
empty row-set returns before a connection is opened: the destination
state — table existence, schema columns and rows alike — is returned
entirely unchanged. -/
theorem load_dataframe_empty_noop (dfCols : List String) (dfRows : List DRow)
    (st : Option DbTableState) (h : dfRows = []) :
    load_dataframe dfCols dfRows st = st := by
  rw [load_dataframe, h]
  simp

/-- The empty-frame no-op at a concrete populated state. -/
theorem load_dataframe_empty_noop_witness :
    load_dataframe ["_id", "a"] []
        (some ⟨["id", "_id", "a", "is_deleted"], [⟨1, [PVal.pStr "k", PVal.pStr "x"], false⟩]⟩) =
      some ⟨["id", "_id", "a", "is_deleted"], [⟨1, [PVal.pStr "k", PVal.pStr "x"], false⟩]⟩ :=
  load_dataframe_empty_noop ["_id", "a"] []
    (some ⟨["id", "_id", "a", "is_deleted"], [⟨1, [PVal.pStr "k", PVal.pStr "x"], false⟩]⟩) rfl

/-! ## Claim C1: the revival law fails in the code

`_upsert_by_id` fetches the existing rows for a key with
`WHERE _id = %s AND is_deleted = 0`, so a soft-deleted row is never in
the fingerprint map and can never be matched again.  When its content
reappears, a brand-new row is inserted and the old surrogate
identifier stays soft-deleted — contrary to the function's own
docstring ("Previously deleted rows with the same content are revived
(is_deleted = 0)") and to the spec's revival law. -/

/-- **C1** (revival law — failing evaluation).  Table state: the single
row `id = 1` for key `"k"` with content `"x"` is soft-deleted, and its
identifier was never reused.  A later run's batch carries exactly one
row for `"k"` with identical content (equal fingerprint).  The claim
requires `id = 1` to become active again with no insertion; the code
instead leaves `id = 1` soft-deleted and inserts the brand-new active
row `id = 2` with the same content. -/
theorem upsert_by_id_no_revival :
    upsert_by_id ["_id", "a"]
        [⟨1, [PVal.pStr "k", PVal.pStr "x"], true⟩]
        [[PVal.pStr "k", PVal.pStr "x"]] =
      [⟨1, [PVal.pStr "k", PVal.pStr "x"], true⟩,
       ⟨2, [PVal.pStr "k", PVal.pStr "x"], false⟩] := by
  decide

/-! ## Claim C8: the type-inference contract -/

/-- **C8** (type inference).  `infer_mysql_type` decides by precedence
on the first non-null sample: a boolean gives `TINYINT(1)`; an integer
gives `BIGINT`; a non-integral float gives `DECIMAL(20,6)`;
timestamp-typed values (a `datetime64` column dtype) give `DATETIME`;
a string gives a `VARCHAR` sized to the observed maximum length plus
50 headroom, capped at 255, falling back to `TEXT` beyond that; any
other first sample (a timestamp value in a non-datetime column) and an
entirely null or empty column give `TEXT`. -/
theorem infer_mysql_type_contract (vals : List PVal) (dt : Bool) :
    (∀ b rest, vals.filter (fun v => v ≠ PVal.pNone) = PVal.pBool b :: rest →
      infer_mysql_type vals dt = "TINYINT(1)")
    ∧ (∀ n rest, vals.filter (fun v => v ≠ PVal.pNone) = PVal.pInt n :: rest →
      infer_mysql_type vals dt = "BIGINT")
    ∧ (∀ q rest, vals.filter (fun v => v ≠ PVal.pNone) = PVal.pFloat q :: rest →
      ratIsInteger q = false → infer_mysql_type vals dt = "DECIMAL(20,6)")
    ∧ (∀ t rest, vals.filter (fun v => v ≠ PVal.pNone) = PVal.pTimestamp t :: rest →
      dt = true → infer_mysql_type vals dt = "DATETIME")
    ∧ (∀ s rest, vals.filter (fun v => v ≠ PVal.pNone) = PVal.pStr s :: rest →
      dt = false →
      infer_mysql_type vals dt =
        (if maxStrLen vals ≤ 255 then
          "VARCHAR(" ++ toString (min (maxStrLen vals + 50) 255) ++ ")"
        else "TEXT"))
    ∧ (∀ t rest, vals.filter (fun v => v ≠ PVal.pNone) = PVal.pTimestamp t :: rest →
      dt = false → infer_mysql_type vals dt = "TEXT")
    ∧ (vals.filter (fun v => v ≠ PVal.pNone) = [] → infer_mysql_type vals dt = "TEXT") := by
  refine ⟨?_, ?_, ?_, ?_, ?_, ?_, ?_⟩
  · intro b rest h
    rw [infer_mysql_type, h]
  · intro n rest h
    rw [infer_mysql_type, h]
  · intro q rest h hq
    rw [infer_mysql_type, h]
    simp [ratIsInteger] at hq
    simp [ratIsInteger, hq]
  · intro t rest h hdt
    rw [infer_mysql_type, h, hdt]
    simp
  · intro s rest h hdt
    rw [infer_mysql_type, h, hdt]
    have hm : maxStrLen vals =
        ((PVal.pStr s :: rest).map (fun v => (valStr v).length)).foldl max 0 := by
      rw [maxStrLen, h]
    simp only [Bool.false_eq_true, if_false, ← hm]
  · intro t rest h hdt
    rw [infer_mysql_type, h, hdt]
    simp
  · intro h
    rw [infer_mysql_type, h]

/-- The C8 contract applied at concrete columns, one per branch. -/
theorem infer_mysql_type_contract_witness :
    infer_mysql_type [PVal.pNone, PVal.pBool true] false = "TINYINT(1)"
    ∧ infer_mysql_type [PVal.pInt 3, PVal.pStr "z"] false = "BIGINT"
    ∧ infer_mysql_type [PVal.pFloat (5 / 2), PVal.pFloat 1] false = "DECIMAL(20,6)"
    ∧ infer_mysql_type [PVal.pTimestamp 7] true = "DATETIME"
    ∧ infer_mysql_type [PVal.pStr "abc"] false = "VARCHAR(53)"
    ∧ infer_mysql_type [PVal.pTimestamp 7] false = "TEXT"
    ∧ infer_mysql_type [PVal.pNone] false = "TEXT" := by
  refine ⟨?_, ?_, ?_, ?_, ?_, ?_, ?_⟩
  · exact (infer_mysql_type_contract [PVal.pNone, PVal.pBool true] false).1 true [] (by decide)
  · exact (infer_mysql_type_contract [PVal.pInt 3, PVal.pStr "z"] false).2.1 3 [PVal.pStr "z"]
      (by decide)
  · exact (infer_mysql_type_contract [PVal.pFloat (5 / 2), PVal.pFloat 1] false).2.2.1 (5 / 2)
      [PVal.pFloat 1] (by simp) (by norm_num [ratIsInteger])
  · exact (infer_mysql_type_contract [PVal.pTimestamp 7] true).2.2.2.1 7 [] (by decide) rfl
  · have := (infer_mysql_type_contract [PVal.pStr "abc"] false).2.2.2.2.1 "abc" [] (by decide) rfl
    rw [this]; decide
  · exact (infer_mysql_type_contract [PVal.pTimestamp 7] false).2.2.2.2.2.1 7 [] (by decide) rfl
  · exact (infer_mysql_type_contract [PVal.pNone] false).2.2.2.2.2.2 (by decide)

/-! ## Flattening lemmas (claims C4 and C5) -/

theorem replicateBy_const (M : Nat) :
    ∀ (xs : List FVal), replicateBy (List.replicate xs.length M) xs
      = xs.flatMap (fun x => List.replicate M x) := by
  intro xs
  induction xs with
  | nil => rfl
  | cons x xs ih => simp only [List.length_cons, List.replicate_succ, replicateBy,
      List.flatMap_cons, ih]

theorem flatMap_of_replicate {α β : Type} (f : α → List β) (v : α) :
    ∀ (K : Nat), (List.replicate K v).flatMap f = (List.replicate K (f v)).flatten := by
  intro K
  induction K with
  | zero => rfl
  | succ K ih => simp only [List.replicate_succ, List.flatMap_cons, List.flatten_cons, ih]

theorem zip_replicate_left {α β : Type} (x : α) :
    ∀ (l : List β), (List.replicate l.length x).zip l = l.map (fun y => (x, y)) := by
  intro l
  induction l with
  | nil => rfl
  | cons y l ih => simp only [List.length_cons, List.replicate_succ, List.zip_cons_cons,
      List.map_cons, ih]

/-- One `while` pass over a frame of two non-empty array columns:
no dict column, so wrap both columns (a no-op on lists) and explode
`A` then `B`, reporting a change. -/
theorem flattenPass_two_lists (a : String) (as' : List String) (b : String) (bs' : List String) :
    flattenPass [("A", [FVal.pyList ((a :: as').map FVal.scalar)]),
        ("B", [FVal.pyList ((b :: bs').map FVal.scalar)])] =
      ([("A", ((a :: as').map FVal.scalar).flatMap
          (fun v => List.replicate (bs'.length + 1) v)),
        ("B", (List.replicate (as'.length + 1) ((b :: bs').map FVal.scalar)).flatten)], true) := by
  have hrb : replicateBy (List.replicate (as'.length + 1) (bs'.length + 1))
      ((a :: as').map FVal.scalar)
      = ((a :: as').map FVal.scalar).flatMap (fun v => List.replicate (bs'.length + 1) v) := by
    have h := replicateBy_const (bs'.length + 1) ((a :: as').map FVal.scalar)
    simpa using h
  simp [flattenPass, isDict, isNonemptyList, wrapCol, wrapVal, explodeCol, dfGetCol,
    explodeCount, explodeElems, replicateBy, hrb, flatMap_of_replicate]
  have h := replicateBy_const (bs'.length + 1) (as'.map FVal.scalar)
  simpa using h

/-- A pass over a frame with no dict value and no non-empty list value
changes nothing and reports no change: the `while` loop halts. -/
theorem flattenPass_flat (df : Df)
    (h : ∀ p ∈ df, ∀ v ∈ p.2, isDict v = false ∧ isNonemptyList v = false) :
    flattenPass df = (df, false) := by
  have hdict : df.filter (fun p => p.2.any isDict) = [] := by
    apply List.filter_eq_nil_iff.2
    intro p hp
    simp only [List.any_eq_true, Bool.not_eq_true]
    rintro ⟨v, hv, hd⟩
    rw [(h p hp v hv).1] at hd
    exact Bool.false_ne_true hd
  have hlist : df.filter (fun p => p.2.any isNonemptyList) = [] := by
    apply List.filter_eq_nil_iff.2
    intro p hp
    simp only [List.any_eq_true, Bool.not_eq_true]
    rintro ⟨v, hv, hd⟩
    rw [(h p hp v hv).2] at hd
    exact Bool.false_ne_true hd
  simp [flattenPass, hdict, hlist]

/-- Once a pass reaches a fixpoint, any remaining fuel is irrelevant. -/
theorem flattenLoop_succ_fix (n : Nat) (df' : Df) (h : flattenPass df' = (df', false)) :
    flattenLoop (n + 1) df' = df' := by
  simp [flattenLoop, h]

/-- A run that changes once and then reaches a fixpoint. -/
theorem flattenLoop_two (n : Nat) (df df' : Df)
    (h1 : flattenPass df = (df', true)) (h2 : flattenPass df' = (df', false)) :
    flattenLoop (n + 2) df = df' := by
  have : flattenLoop (n + 2) df = flattenLoop (n + 1) df' := by
    simp [flattenLoop, h1]
  rw [this, flattenLoop_succ_fix n df' h2]

theorem fvalSize_pos (v : FVal) : 1 ≤ fvalSize v := by
  cases v <;> simp [fvalSize]

theorem dfFuel_pair_ge_two (c1 c2 : String) (v1 v2 : FVal) :
    2 ≤ dfFuel [(c1, [v1]), (c2, [v2])] := by
  have h1 := fvalSize_pos v1
  simp [dfFuel, flistSize]
  omega

theorem length_flatMap_replicate {α : Type} (M : Nat) :
    ∀ (l : List α), (l.flatMap (fun v => List.replicate M v)).length = l.length * M := by
  intro l
  induction l with
  | nil => simp
  | cons x l ih =>
    simp [List.flatMap_cons, ih, Nat.succ_mul]
    omega

theorem length_flatten_replicate {α : Type} (l : List α) :
    ∀ (K : Nat), ((List.replicate K l).flatten).length = K * l.length := by
  intro K
  induction K with
  | zero => simp
  | succ K ih => simp [List.replicate_succ, ih, Nat.succ_mul]; omega

theorem flatMap_over_map {α β γ : Type} (f : α → β) (g : β → List γ) :
    ∀ (l : List α), (l.map f).flatMap g = l.flatMap (fun x => g (f x)) := by
  intro l
  induction l with
  | nil => rfl
  | cons x l ih => simp [List.flatMap_cons, ih]

theorem zip_flatMap_cross {α : Type} (M : Nat) :
    ∀ (xs ys : List α), ys.length = M →
      (xs.flatMap (fun v => List.replicate M v)).zip ((List.replicate xs.length ys).flatten)
        = xs.flatMap (fun x => ys.map (fun y => (x, y))) := by
  intro xs
  induction xs with
  | nil => intro ys h; rfl
  | cons x xs ih =>
    intro ys h
    subst h
    simp only [List.flatMap_cons, List.length_cons, List.replicate_succ, List.flatten_cons]
    rw [List.zip_append (by rw [List.length_replicate])]
    rw [zip_replicate_left x ys, ih ys rfl]

/-! ## Claim C4: the cartesian expansion law -/

/-- **C4** (cartesian expansion).  A one-document frame with two
sibling array columns of lengths `K = |as| ≥ 1` and `M = |bs| ≥ 1`
flattens to exactly `K × M` rows, and — reading rows as the positional
zip of the two columns — the rows are exactly the full cross product
of the two arrays in lexicographic order (explode `A`, then explode
`B` on each result row), not a zipped pairing. -/
theorem flatten_dataframe_cartesian (as bs : List String) (hA : as ≠ []) (hB : bs ≠ []) :
    ∃ colA colB,
      flatten_dataframe
          [("A", [FVal.pyList (as.map FVal.scalar)]), ("B", [FVal.pyList (bs.map FVal.scalar)])]
        = [("A", colA), ("B", colB)]
      ∧ colA.length = as.length * bs.length
      ∧ colB.length = as.length * bs.length
      ∧ colA.zip colB = as.flatMap (fun x => bs.map (fun y => (FVal.scalar x, FVal.scalar y))) := by
  obtain ⟨a, as', rfl⟩ : ∃ x l, as = x :: l := by
    cases as with
    | nil => exact absurd rfl hA
    | cons x l => exact ⟨x, l, rfl⟩
  obtain ⟨b, bs', rfl⟩ : ∃ x l, bs = x :: l := by
    cases bs with
    | nil => exact absurd rfl hB
    | cons x l => exact ⟨x, l, rfl⟩
  refine ⟨((a :: as').map FVal.scalar).flatMap (fun v => List.replicate (bs'.length + 1) v),
    (List.replicate (as'.length + 1) ((b :: bs').map FVal.scalar)).flatten, ?_, ?_, ?_, ?_⟩
  · rw [flatten_dataframe]
    obtain ⟨k, hk⟩ := Nat.le.dest (dfFuel_pair_ge_two "A" "B"
      (FVal.pyList ((a :: as').map FVal.scalar)) (FVal.pyList ((b :: bs').map FVal.scalar)))
    rw [← hk, Nat.add_comm 2 k]
    apply flattenLoop_two _ _ _ (flattenPass_two_lists a as' b bs')
    apply flattenPass_flat
    intro p hp v hv
    have hscal : ∃ s, v = FVal.scalar s := by
      simp only [List.mem_cons, List.mem_singleton, List.not_mem_nil, or_false] at hp
      rcases hp with hp | hp
      · subst hp
        simp only [List.mem_flatMap, List.mem_map] at hv
        obtain ⟨w, ⟨⟨s, hs, rfl⟩, hw⟩⟩ := hv
        exact ⟨s, (List.eq_of_mem_replicate hw).symm ▸ rfl⟩
      · subst hp
        simp only [List.mem_flatten, List.mem_replicate] at hv
        obtain ⟨w, ⟨-, rfl⟩, hw⟩ := hv
        obtain ⟨s, hs, rfl⟩ := List.mem_map.1 hw
        exact ⟨s, rfl⟩
    obtain ⟨s, rfl⟩ := hscal
    exact ⟨rfl, rfl⟩
  · rw [length_flatMap_replicate]
    simp [Nat.mul_comm]
  · rw [length_flatten_replicate]
    simp [Nat.mul_comm]
  · have hz := zip_flatMap_cross (bs'.length + 1) ((a :: as').map FVal.scalar)
      ((b :: bs').map FVal.scalar) (by simp)
    simp only [List.length_map, List.length_cons] at hz
    rw [hz, flatMap_over_map]
    simp [List.map_map, Function.comp_def]

/-- The cartesian law at `K = 2`, `M = 3`: six rows, the full cross
product. -/
theorem flatten_dataframe_cartesian_witness :
    ∃ colA colB,
      flatten_dataframe
          [("A", [FVal.pyList (["1", "2"].map FVal.scalar)]),
           ("B", [FVal.pyList (["x", "y", "z"].map FVal.scalar)])]
        = [("A", colA), ("B", colB)]
      ∧ colA.length = 6 ∧ colB.length = 6
      ∧ colA.zip colB = ["1", "2"].flatMap
          (fun x => ["x", "y", "z"].map (fun y => (FVal.scalar x, FVal.scalar y))) := by
  obtain ⟨colA, colB, h1, h2, h3, h4⟩ :=
    flatten_dataframe_cartesian ["1", "2"] ["x", "y", "z"] (by decide) (by decide)
  exact ⟨colA, colB, h1, h2, h3, h4⟩

/-! ## Claim C5: explode semantics on empty sequences

`DataFrame.explode` does **not** drop a row holding an empty list: it
keeps the row, replacing the value by `NaN`.  The claim's "dropped
entirely" is refuted below and the pandas behaviour proved in its
place. -/

theorem explodeElems_scalar_list (l : List String) :
    explodeElems (FVal.pyList (l.map FVal.scalar)) =
      (if l = [] then [FVal.null] else l.map FVal.scalar) := by
  cases l with
  | nil => rfl
  | cons x ls => simp [explodeElems]

theorem dfFuel_single_ge_two (c : String) (v : FVal) (vs : List FVal) :
    2 ≤ dfFuel [(c, v :: vs)] := by
  have h1 := fvalSize_pos v
  simp [dfFuel, flistSize]
  omega

/-- One `while` pass over a single list-holding column with at least
one non-empty list: wrap (a no-op on lists) and explode, keeping each
empty-list row as one `NaN` row. -/
theorem flattenPass_single_list (vss : List (List String)) (h : ∃ l ∈ vss, l ≠ []) :
    flattenPass [("A", vss.map (fun l => FVal.pyList (l.map FVal.scalar)))] =
      ([("A", vss.flatMap (fun l => if l = [] then [FVal.null] else l.map FVal.scalar))], true) := by
  have hd : (vss.map (fun l => FVal.pyList (l.map FVal.scalar))).any isDict = false := by
    simp [List.any_map, Function.comp_def, isDict]
  have hl : (vss.map (fun l => FVal.pyList (l.map FVal.scalar))).any isNonemptyList = true := by
    obtain ⟨l, hl, hne⟩ := h
    cases l with
    | nil => exact absurd rfl hne
    | cons x ls =>
      apply List.any_eq_true.2
      exact ⟨FVal.pyList ((x :: ls).map FVal.scalar), List.mem_map_of_mem _ hl,
        by simp [isNonemptyList]⟩
  have hw : (vss.map (fun l => FVal.pyList (l.map FVal.scalar))).map wrapVal
      = vss.map (fun l => FVal.pyList (l.map FVal.scalar)) := by
    simp [List.map_map, Function.comp_def, wrapVal]
  simp [flattenPass, hd, hl, wrapCol, hw, explodeCol, dfGetCol, flatMap_over_map,
    explodeElems_scalar_list]

/-- **C5 (amended)**.  When `flatten_dataframe` explodes a column (one
holding a non-empty sequence in at least one row), a row whose value
in that column is an empty sequence is *not* dropped: it is retained
as exactly one row whose value in that column is null (`NaN`), while
each non-empty sequence of length `n` becomes `n` rows of its
elements. -/
theorem flatten_dataframe_empty_sequence_kept (vss : List (List String))
    (h : ∃ l ∈ vss, l ≠ []) :
    flatten_dataframe [("A", vss.map (fun l => FVal.pyList (l.map FVal.scalar)))] =
      [("A", vss.flatMap (fun l => if l = [] then [FVal.null] else l.map FVal.scalar))] := by
  have hcopy := h
  obtain ⟨l0, hl0, -⟩ := hcopy
  obtain ⟨v0, vs0, hcons⟩ : ∃ x xs, vss = x :: xs := by
    cases vss with
    | nil => exact absurd hl0 (List.not_mem_nil l0)
    | cons x xs => exact ⟨x, xs, rfl⟩
  rw [flatten_dataframe]
  obtain ⟨k, hk⟩ := Nat.le.dest (by
    rw [hcons]
    simpa using dfFuel_single_ge_two "A" (FVal.pyList (v0.map FVal.scalar))
      (vs0.map (fun l => FVal.pyList (l.map FVal.scalar))) :
    2 ≤ dfFuel [("A", vss.map (fun l => FVal.pyList (l.map FVal.scalar)))])
  rw [← hk, Nat.add_comm 2 k]
  apply flattenLoop_two _ _ _ (flattenPass_single_list vss h)
  apply flattenPass_flat
  intro p hp v hv
  simp only [List.mem_singleton] at hp
  subst hp
  simp only [List.mem_flatMap] at hv
  obtain ⟨l, -, hvl⟩ := hv
  by_cases hle : l = []
  · rw [if_pos hle] at hvl
    simp only [List.mem_singleton] at hvl
    subst hvl
    exact ⟨rfl, rfl⟩
  · rw [if_neg hle] at hvl
    obtain ⟨s, -, rfl⟩ := List.mem_map.1 hvl
    exact ⟨rfl, rfl⟩

/-- **C5 (counterexample to the claim as stated)**.  Column `A` holds
`[["x"], []]`; the claim says the second row (empty sequence) is
dropped entirely, leaving the single row `["x"]`.  The code instead
keeps two rows, the second with a null value. -/
theorem flatten_dataframe_empty_sequence_not_dropped :
    flatten_dataframe [("A", [FVal.pyList [FVal.scalar "x"], FVal.pyList []])] =
      [("A", [FVal.scalar "x", FVal.null])]
    ∧ flatten_dataframe [("A", [FVal.pyList [FVal.scalar "x"], FVal.pyList []])] ≠
      [("A", [FVal.scalar "x"])] := by
  have h := flattenPass_single_list [["x"], []] ⟨["x"], by simp, by simp⟩
  have h2 : flatten_dataframe [("A", [FVal.pyList [FVal.scalar "x"], FVal.pyList []])] =
      [("A", [FVal.scalar "x", FVal.null])] := by
    rw [flatten_dataframe]
    obtain ⟨k, hk⟩ := Nat.le.dest (dfFuel_single_ge_two "A" (FVal.pyList [FVal.scalar "x"])
      [FVal.pyList []])
    rw [show dfFuel [("A", [FVal.pyList [FVal.scalar "x"], FVal.pyList []])]
        = k + 2 by omega]
    apply flattenLoop_two _ _ _ (by simpa using h)
    apply flattenPass_flat
    intro p hp v hv
    simp only [List.mem_singleton] at hp
    subst hp
    simp only [List.mem_cons, List.not_mem_nil, or_false] at hv
    rcases hv with rfl | rfl
    · exact ⟨rfl, rfl⟩
    · exact ⟨rfl, rfl⟩
  refine ⟨h2, ?_⟩
  rw [h2]
  simp

/-- The amended C5 behaviour at a concrete batch: a two-element list
row, an empty-list row and a one-element list row flatten to three
element rows with the empty row kept as null. -/
theorem flatten_dataframe_empty_sequence_kept_witness :
    flatten_dataframe [("A", [["y", "z"], [], ["w"]].map (fun l => FVal.pyList (l.map FVal.scalar)))] =
      [("A", [FVal.scalar "y", FVal.scalar "z", FVal.null, FVal.scalar "w"])] := by
  have h := flatten_dataframe_empty_sequence_kept [["y", "z"], [], ["w"]]
    ⟨["y", "z"], by simp, by simp⟩
  simpa using h

/-! ## Reconciliation lemmas: dictionaries and row transformations -/

theorem dlookup_cons (k0 : String) (v0 : PVal) (l : List (String × PVal)) (c : String) :
    dlookup ((k0, v0) :: l) c
      = (dlookup l c).or (if k0 == c then some v0 else none) := by
  rw [dlookup, dlookup, List.reverse_cons, List.find?_append]
  cases hfind : List.find? (fun p => p.1 == c) l.reverse with
  | none =>
    by_cases hk : k0 == c <;> simp [List.find?, hk, Option.or]
  | some p =>
    simp [Option.or]

/-- A first-component-preserving rewrite of the entries named `c`
leaves every lookup at a different key unchanged. -/
theorem dlookup_map_ne (c c' : String) (v : PVal) (h : (c' == c) = false) :
    ∀ (l : List (String × PVal)),
      dlookup (l.map (fun p => if p.1 == c then (p.1, v) else p)) c' = dlookup l c' := by
  intro l
  induction l with
  | nil => rfl
  | cons p l ih =>
    obtain ⟨k0, v0⟩ := p
    by_cases hk : (k0 == c) = true
    · rw [List.map_cons, if_pos hk, dlookup_cons, dlookup_cons, ih]
      have hkc : (k0 == c') = false := by
        simp only [beq_eq_false_iff_ne]
        intro hk0
        have hcc : c' = c := by rw [← hk0]; exact eq_of_beq hk
        rw [hcc] at h
        simp at h
      rw [hkc]
      simp
    · rw [List.map_cons, if_neg hk, dlookup_cons, dlookup_cons, ih]

theorem zip_setColVal (cols : List String) (c : String) (v : PVal) :
    ∀ (vals : List PVal),
      cols.zip (setColVal cols c v vals)
        = (cols.zip vals).map (fun p => if p.1 == c then (p.1, v) else p) := by
  induction cols with
  | nil => intro vals; rfl
  | cons c0 cols ih =>
    intro vals
    cases vals with
    | nil => simp [setColVal]
    | cons v0 vals =>
      have hs : setColVal (c0 :: cols) c v (v0 :: vals)
          = (if c0 == c then v else v0) :: setColVal cols c v vals := by
        simp [setColVal]
      rw [hs, List.zip_cons_cons, List.zip_cons_cons, List.map_cons, ih vals]
      by_cases hc : c0 == c <;> simp [hc]

theorem rowFp_congr (fpCols : List String) (d d' : List (String × PVal))
    (h : ∀ c ∈ fpCols, dlookup d' c = dlookup d c) : rowFp fpCols d' = rowFp fpCols d := by
  rw [rowFp, rowFp]
  congr 1
  apply List.map_congr_left
  intro c hc
  rw [h c hc]

theorem fpColsOf_ne (cols : List String) (c : String)
    (h : c ∈ fpColsOf cols) : c ≠ "updated_at" ∧ c ≠ "id" := by
  rw [fpColsOf] at h
  have h2 := List.of_mem_filter h
  simp only [Bool.not_eq_eq_eq_not, Bool.not_true] at h2
  constructor
  · intro hc
    subst hc
    simp [fpExclude] at h2
  · intro hc
    subst hc
    simp [fpExclude] at h2

/-- The fingerprint (and the natural key) of a freshly built row are
those of the incoming row it carries: the prepended `("id", …)` entry
is outside the fingerprint columns and is not `"_id"`. -/
theorem dbRowFp_mk (cols : List String) (i : Nat) (row : DRow) (b : Bool) :
    dbRowFp cols ⟨i, row, b⟩ = dfRowFp cols row := by
  rw [dbRowFp, dfRowFp, dbRowDict, dfRowDict]
  apply rowFp_congr
  intro c hc
  have hne : ("id" == c) = false := by
    simp only [beq_eq_false_iff_ne]
    exact fun hc2 => (fpColsOf_ne cols c hc).2 hc2.symm
  rw [dlookup_cons, hne]
  simp

theorem dbRowUid_mk (cols : List String) (i : Nat) (row : DRow) (b : Bool) :
    dbRowUid cols ⟨i, row, b⟩ = dfRowUid cols row := by
  rw [dbRowUid, dfRowUid, dbRowDict, dfRowDict, dlookup_cons]
  simp

theorem matchFn_id (cols : List String) (row : DRow) (r : DbRow) :
    (matchFn cols row r).id = r.id := by
  rw [matchFn]
  by_cases h : cols.contains "updated_at" = true
  · rw [if_pos h]
  · rw [if_neg h]

theorem matchFn_is_deleted (cols : List String) (row : DRow) (r : DbRow) :
    (matchFn cols row r).is_deleted = false := by
  rw [matchFn]
  by_cases h : cols.contains "updated_at" = true
  · rw [if_pos h]
  · rw [if_neg h]

theorem matchFn_uid (cols : List String) (row : DRow) (r : DbRow) :
    dbRowUid cols (matchFn cols row r) = dbRowUid cols r := by
  rw [matchFn]
  by_cases h : cols.contains "updated_at" = true
  · rw [if_pos h]
    rw [dbRowUid, dbRowUid, dbRowDict, dbRowDict]
    simp only
    rw [dlookup_cons, dlookup_cons, zip_setColVal, dlookup_map_ne _ _ _ (by decide)]
  · rw [if_neg h]
    rfl

theorem matchFn_fp (cols : List String) (row : DRow) (r : DbRow) :
    dbRowFp cols (matchFn cols row r) = dbRowFp cols r := by
  rw [matchFn]
  by_cases h : cols.contains "updated_at" = true
  · rw [if_pos h]
    rw [dbRowFp, dbRowFp, dbRowDict, dbRowDict]
    simp only
    apply rowFp_congr
    intro c hc
    have hne : (c == "updated_at") = false := by
      simp only [beq_eq_false_iff_ne]
      exact (fpColsOf_ne cols c hc).1
    rw [dlookup_cons, dlookup_cons, zip_setColVal, dlookup_map_ne _ _ _ hne]
  · rw [if_neg h]
    rfl

theorem owFn_eq_mk (row : DRow) (r : DbRow) : owFn row r = ⟨r.id, row, false⟩ := rfl

theorem sdFn_id (ids : List Nat) (r : DbRow) : (sdFn ids r).id = r.id := by
  rw [sdFn]
  by_cases h : ids.contains r.id = true
  · rw [if_pos h]
  · rw [if_neg h]

theorem sdFn_not_mem (ids : List Nat) (r : DbRow) (h : r.id ∉ ids) : sdFn ids r = r := by
  rw [sdFn, if_neg (fun hc => h (List.mem_of_elem_eq_true hc))]

theorem sdFn_mem (ids : List Nat) (r : DbRow) (h : r.id ∈ ids) :
    sdFn ids r = { r with is_deleted := true } := by
  rw [sdFn, if_pos (List.elem_eq_true_of_mem h)]

theorem sdFn_uid (cols : List String) (ids : List Nat) (r : DbRow) :
    dbRowUid cols (sdFn ids r) = dbRowUid cols r := by
  rw [sdFn]
  by_cases h : ids.contains r.id = true
  · rw [if_pos h]
    rfl
  · rw [if_neg h]

/-! ## Reconciliation lemmas: select, sort, identifiers -/

theorem insertById_perm (r : DbRow) : ∀ (l : Table), (insertById r l).Perm (r :: l) := by
  intro l
  induction l with
  | nil => exact List.Perm.refl _
  | cons s t ih =>
    rw [insertById]
    by_cases h : r.id ≤ s.id
    · rw [if_pos h]
    · rw [if_neg h]
      exact (ih.cons s).trans (List.Perm.swap r s t)

theorem sortById_perm : ∀ (l : Table), (sortById l).Perm l := by
  intro l
  induction l with
  | nil => exact List.Perm.refl _
  | cons r t ih =>
    rw [sortById] at ih ⊢
    rw [List.foldr_cons]
    exact (insertById_perm r _).trans (ih.cons r)

theorem selectActive_perm (cols : List String) (T : Table) (uid : Option PVal) :
    (selectActive cols T uid).Perm
      (T.filter (fun r => dbRowUid cols r == uid && r.is_deleted == false)) :=
  sortById_perm _

theorem selectActive_mem (cols : List String) (T : Table) (uid : Option PVal) (r : DbRow)
    (h : r ∈ selectActive cols T uid) :
    r ∈ T ∧ dbRowUid cols r = uid ∧ r.is_deleted = false := by
  have hm := (selectActive_perm cols T uid).mem_iff.1 h
  have h1 := List.mem_of_mem_filter hm
  have h2 := List.of_mem_filter hm
  simp only [Bool.and_eq_true, beq_iff_eq] at h2
  exact ⟨h1, h2.1, h2.2⟩

theorem idsOf_append (T S : Table) : idsOf (T ++ S) = idsOf T ++ idsOf S := by
  rw [idsOf, idsOf, idsOf, List.map_append]

theorem idsOf_map (f : DbRow → DbRow) (hf : ∀ r, (f r).id = r.id) (T : Table) :
    idsOf (T.map f) = idsOf T := by
  rw [idsOf, idsOf, List.map_map]
  apply List.map_congr_left
  intro r hr
  exact hf r

theorem maxId_eq_fold (T : Table) : maxId T = (idsOf T).foldl max 0 := rfl

theorem foldl_max_init (l : List Nat) : ∀ (a : Nat), l.foldl max a = max a (l.foldl max 0) := by
  induction l with
  | nil => intro a; simp
  | cons x l ih =>
    intro a
    rw [List.foldl_cons, List.foldl_cons, ih (max a x), ih (max 0 x)]
    simp [Nat.max_assoc]

theorem maxId_append (T S : Table) : maxId (T ++ S) = max (maxId T) (maxId S) := by
  rw [maxId_eq_fold, maxId_eq_fold, maxId_eq_fold, idsOf_append, List.foldl_append,
    foldl_max_init]

theorem le_foldl_max (a : Nat) : ∀ (l : List Nat), a ∈ l → a ≤ l.foldl max 0 := by
  intro l
  induction l with
  | nil => intro h; exact absurd h (List.not_mem_nil _)
  | cons x l ih =>
    intro h
    rw [List.foldl_cons, foldl_max_init]
    rcases List.mem_cons.1 h with rfl | h2
    · simp
    · have := ih h2
      omega

theorem le_maxId (T : Table) (r : DbRow) (h : r ∈ T) : r.id ≤ maxId T := by
  rw [maxId_eq_fold]
  exact le_foldl_max r.id (idsOf T) (List.mem_map_of_mem _ h)

theorem maxId_cons (r : DbRow) (S : Table) : maxId (r :: S) = max r.id (maxId S) := by
  rw [maxId_eq_fold, maxId_eq_fold, idsOf, List.map_cons, ← idsOf, List.foldl_cons,
    foldl_max_init]
  simp

theorem maxId_congr (T T' : Table) (h : idsOf T = idsOf T') : maxId T = maxId T' := by
  rw [maxId_eq_fold, maxId_eq_fold, h]

theorem updateById_eq_map (T : Table) (i : Nat) (f : DbRow → DbRow) :
    updateById T i f = T.map (fun r => if r.id == i then f r else r) := rfl

/-! ## Reconciliation lemmas: `applyPairs` and `applyUpdates` -/

theorem applyPairs_cons (fn : DRow → DbRow → DbRow) (p : Nat × DRow) (ps : List (Nat × DRow))
    (r : DbRow) :
    applyPairs fn (p :: ps) r = applyPairs fn ps (if r.id == p.1 then fn p.2 r else r) := rfl

theorem applyPairs_id (fn : DRow → DbRow → DbRow) (hfn : ∀ row r, (fn row r).id = r.id) :
    ∀ (ps : List (Nat × DRow)) (r : DbRow), (applyPairs fn ps r).id = r.id := by
  intro ps
  induction ps with
  | nil => intro r; rfl
  | cons p ps ih =>
    intro r
    rw [applyPairs_cons, ih]
    by_cases h : (r.id == p.1) = true <;> simp [h, hfn]

theorem applyPairs_not_mem (fn : DRow → DbRow → DbRow) :
    ∀ (ps : List (Nat × DRow)) (r : DbRow), (∀ p ∈ ps, r.id ≠ p.1) →
      applyPairs fn ps r = r := by
  intro ps
  induction ps with
  | nil => intro r h; rfl
  | cons p ps ih =>
    intro r h
    rw [applyPairs_cons, if_neg]
    · exact ih r (fun q hq => h q (List.mem_cons_of_mem p hq))
    · simp only [beq_iff_eq]
      exact h p (List.mem_cons_self p ps)

theorem applyPairs_mem (fn : DRow → DbRow → DbRow) (hfn : ∀ row r, (fn row r).id = r.id) :
    ∀ (ps : List (Nat × DRow)), ((ps.map (fun p => p.1)).Nodup) →
      ∀ (i : Nat) (row : DRow), (i, row) ∈ ps → ∀ (r : DbRow), r.id = i →
        applyPairs fn ps r = fn row r := by
  intro ps
  induction ps with
  | nil =>
    intro hnd i row hp
    exact absurd hp (List.not_mem_nil _)
  | cons q ps ih =>
    intro hnd i row hp r hr
    rcases List.mem_cons.1 hp with rfl | hp2
    · rw [applyPairs_cons, if_pos (by simp [hr])]
      apply applyPairs_not_mem
      intro p hp3
      rw [hfn, hr]
      intro hcontra
      have hmem : i ∈ ps.map (fun p => p.1) := by
        rw [hcontra]
        exact List.mem_map_of_mem (fun p => p.1) hp3
      exact (List.nodup_cons.1 (by simpa using hnd)).1 hmem
    · have hq : r.id ≠ q.1 := by
        rw [hr]
        intro hcontra
        have hmem : q.1 ∈ ps.map (fun p => p.1) := by
          rw [← hcontra]
          exact List.mem_map_of_mem (fun p => p.1) hp2
        exact (List.nodup_cons.1 (by simpa using hnd)).1 hmem
      rw [applyPairs_cons, if_neg (by simpa using hq)]
      exact ih (List.nodup_cons.1 (by simpa using hnd)).2 i row hp2 r hr

theorem applyUpdates_eq_map (fn : DRow → DbRow → DbRow) :
    ∀ (ps : List (Nat × DRow)) (T : Table), applyUpdates fn ps T = T.map (applyPairs fn ps) := by
  intro ps
  induction ps with
  | nil =>
    intro T
    rw [applyUpdates, List.foldl_nil]
    have h2 : T.map (applyPairs fn []) = T := by
      have hpt : ∀ r ∈ T, applyPairs fn [] r = id r := fun r _ => rfl
      rw [List.map_congr_left hpt, List.map_id]
    rw [h2]
  | cons p ps ih =>
    intro T
    rw [applyUpdates, List.foldl_cons, ← applyUpdates, ih, updateById_eq_map, List.map_map]
    rfl

/-! ## Reconciliation lemmas: `appendNew` and the new-row block -/

theorem newRowsFrom_ids (rows : List DRow) : ∀ (b : Nat),
    idsOf (newRowsFrom b rows) = blockFrom (b + 1) rows.length := by
  induction rows with
  | nil => intro b; rfl
  | cons row rest ih =>
    intro b
    rw [newRowsFrom, blockFrom, List.length_cons, List.range_succ_eq_map, List.map_cons]
    rw [idsOf, List.map_cons, ← idsOf, ih (b + 1), blockFrom, List.map_map]
    have hhead : ({ id := b + 1, vals := row, is_deleted := false } : DbRow).id = b + 1 + 0 := by
      simp
    rw [hhead]
    congr 1
    apply List.map_congr_left
    intro j hj
    simp only [Function.comp_def]
    omega

theorem newRowsFrom_gt (rows : List DRow) : ∀ (b : Nat) (r : DbRow),
    r ∈ newRowsFrom b rows → b < r.id := by
  induction rows with
  | nil =>
    intro b r hr
    exact absurd hr (List.not_mem_nil _)
  | cons row rest ih =>
    intro b r hr
    rw [newRowsFrom] at hr
    rcases List.mem_cons.1 hr with rfl | hr2
    · exact Nat.lt_succ_self b
    · exact Nat.lt_of_succ_lt (ih (b + 1) r hr2)

theorem countP_newRowsFrom (p : DbRow → Bool) (q : DRow → Bool) :
    ∀ (rows : List DRow) (b : Nat),
      (∀ row ∈ rows, ∀ i, b < i → p ⟨i, row, false⟩ = q row) →
      (newRowsFrom b rows).countP p = rows.countP q := by
  intro rows
  induction rows with
  | nil => intro b h; rfl
  | cons row rest ih =>
    intro b h
    rw [newRowsFrom, List.countP_cons, List.countP_cons,
      ih (b + 1) (fun row2 hrow2 i hi => h row2 (List.mem_cons_of_mem row hrow2) i
        (Nat.lt_of_succ_lt hi)),
      h row (List.mem_cons_self row rest) (b + 1) (Nat.lt_succ_self b)]

theorem maxId_newRowsFrom (l : List DRow) : ∀ (b : Nat), l ≠ [] →
    maxId (newRowsFrom b l) = b + l.length := by
  induction l with
  | nil => intro b h; exact absurd rfl h
  | cons x xs ih =>
    intro b h
    rw [newRowsFrom, maxId_cons]
    cases xs with
    | nil =>
      rw [newRowsFrom]
      simp [maxId_eq_fold, idsOf]
    | cons y ys =>
      rw [ih (b + 1) (by simp)]
      simp only [List.length_cons]
      omega

theorem maxId_newRowsFrom_append (T : Table) (rows : List DRow) :
    maxId (T ++ newRowsFrom (maxId T) rows)
      = (if rows.isEmpty then maxId T else maxId T + rows.length) := by
  cases rows with
  | nil => simp [newRowsFrom]
  | cons row rest =>
    rw [maxId_append, maxId_newRowsFrom (row :: rest) (maxId T) (by simp)]
    simp

theorem appendNew_eq (rows : List DRow) : ∀ (T : Table),
    appendNew T rows = T ++ newRowsFrom (maxId T) rows := by
  induction rows with
  | nil => intro T; simp [appendNew, newRowsFrom]
  | cons row rest ih =>
    intro T
    rw [appendNew, List.foldl_cons, ← appendNew, ih, newRowsFrom]
    have hmax : maxId (T ++ [(⟨maxId T + 1, row, false⟩ : DbRow)]) = maxId T + 1 := by
      rw [maxId_append]
      have : maxId [(⟨maxId T + 1, row, false⟩ : DbRow)] = maxId T + 1 := by
        rw [maxId_eq_fold]
        simp [idsOf]
      rw [this]
      simp
    rw [hmax, List.append_assoc]
    rfl

/-! ## Reconciliation lemmas: the fingerprint map -/

theorem fpMapGet_nil (fp : String) : fpMapGet [] fp = [] := rfl

theorem fpMapGet_cons_pos (p : String × List Nat) (m : FpMap) (fp : String)
    (h : (p.1 == fp) = true) : fpMapGet (p :: m) fp = p.2 := by
  rw [fpMapGet, List.find?_cons, h]

theorem fpMapGet_cons_neg (p : String × List Nat) (m : FpMap) (fp : String)
    (h : (p.1 == fp) = false) : fpMapGet (p :: m) fp = fpMapGet m fp := by
  rw [fpMapGet, List.find?_cons, h, fpMapGet]

theorem fpKeys_map (g : String × List Nat → String × List Nat)
    (hfst : ∀ q, (g q).1 = q.1) (m : FpMap) : fpKeys (m.map g) = fpKeys m := by
  rw [fpKeys, fpKeys, List.map_map]
  apply List.map_congr_left
  intro p hp
  exact hfst p

theorem fpMapGet_map_ne (g : String × List Nat → String × List Nat) (fp' : String)
    (hfst : ∀ q, (g q).1 = q.1) (hne : ∀ q, (q.1 == fp') = true → g q = q) :
    ∀ (m : FpMap), fpMapGet (m.map g) fp' = fpMapGet m fp' := by
  intro m
  induction m with
  | nil => rfl
  | cons p m ih =>
    rw [List.map_cons]
    by_cases hp : (p.1 == fp') = true
    · rw [fpMapGet_cons_pos _ _ fp' (by rw [hfst]; exact hp), fpMapGet_cons_pos p m fp' hp,
        hne p hp]
    · rw [fpMapGet_cons_neg _ _ fp' (by rw [hfst]; simpa using hp),
        fpMapGet_cons_neg p m fp' (by simpa using hp), ih]

theorem fpMapGet_map_snd (g : String × List Nat → String × List Nat) (fp : String)
    (f : List Nat → List Nat)
    (hfst : ∀ q, (g q).1 = q.1) (hsnd : ∀ q, (q.1 == fp) = true → (g q).2 = f q.2) :
    ∀ (m : FpMap), fpMapGet (m.map g) fp
      = (match m.find? (fun q => q.1 == fp) with
         | some q => f q.2
         | none => []) := by
  intro m
  induction m with
  | nil => rfl
  | cons p m ih =>
    rw [List.map_cons]
    by_cases hp : (p.1 == fp) = true
    · rw [fpMapGet_cons_pos _ _ fp (by rw [hfst]; exact hp), List.find?_cons, hp, hsnd p hp]
    · rw [fpMapGet_cons_neg _ _ fp (by rw [hfst]; simpa using hp), List.find?_cons,
        (by simpa using hp : (p.1 == fp) = false), ih]

theorem mapBucket_id_of_none (g : String × List Nat → String × List Nat) (fp : String)
    (hne : ∀ q, (q.1 == fp) = false → g q = q) (m : FpMap)
    (h : ∀ q ∈ m, (q.1 == fp) = false) : m.map g = m := by
  have hpt : ∀ q ∈ m, g q = id q := by
    intro q hq
    rw [hne q (h q hq), id]
  rw [List.map_congr_left hpt, List.map_id]

theorem fpKeys_fpMapAppend_nodup (m : FpMap) (fp : String) (i : Nat)
    (h : (fpKeys m).Nodup) : (fpKeys (fpMapAppend m fp i)).Nodup := by
  rw [fpMapAppend]
  by_cases hany : m.any (fun p => p.1 == fp) = true
  · rw [if_pos hany, fpKeys_map _ (fun q => by split <;> rfl)]
    exact h
  · rw [if_neg hany]
    have hnot : fp ∉ fpKeys m := by
      intro hmem
      obtain ⟨p, hp, hp1⟩ := List.mem_map.1 hmem
      exact hany (List.any_eq_true.2 ⟨p, hp, by simp [hp1]⟩)
    have hkeys : fpKeys (m ++ [(fp, [i])]) = fpKeys m ++ [fp] := by
      rw [fpKeys, fpKeys, List.map_append]
      rfl
    rw [hkeys]
    simp [List.nodup_append, h, hnot]

theorem fpMapGet_fpMapAppend_same (fp : String) (i : Nat) (m : FpMap) :
    fpMapGet (fpMapAppend m fp i) fp = fpMapGet m fp ++ [i] := by
  rw [fpMapAppend]
  by_cases hany : m.any (fun p => p.1 == fp) = true
  · rw [if_pos hany]
    rw [fpMapGet_map_snd _ fp (fun l => l ++ [i]) (fun q => by split <;> rfl)
      (fun q hq => by rw [if_pos hq])]
    obtain ⟨p, hp, hpt⟩ := List.any_eq_true.1 hany
    rw [fpMapGet]
    cases hfind : m.find? (fun q => q.1 == fp) with
    | none =>
      rw [List.find?_eq_none] at hfind
      exact absurd hpt (by simpa using hfind p hp)
    | some q => rfl
  · rw [if_neg hany]
    have hnone : m.find? (fun q => q.1 == fp) = none := by
      rw [List.find?_eq_none]
      intro p hp
      intro hc
      exact hany (List.any_eq_true.2 ⟨p, hp, hc⟩)
    have hm : fpMapGet m fp = [] := by
      rw [fpMapGet, hnone]
    rw [hm, List.nil_append]
    clear hany hm
    induction m with
    | nil =>
      rw [List.nil_append]
      exact fpMapGet_cons_pos (fp, [i]) [] fp (by simp)
    | cons p m ih =>
      have hp : (p.1 == fp) = false := by
        cases hfind2 : (p.1 == fp) with
        | false => rfl
        | true =>
          rw [List.find?_eq_none] at hnone
          exact absurd hfind2 (by simpa using hnone p (List.mem_cons_self p m))
      rw [List.cons_append, fpMapGet_cons_neg p _ fp hp]
      apply ih
      rw [List.find?_eq_none] at hnone ⊢
      intro q hq
      exact hnone q (List.mem_cons_of_mem p hq)

theorem fpMapGet_fpMapAppend_ne (fp fp' : String) (i : Nat) (h : fp' ≠ fp) (m : FpMap) :
    fpMapGet (fpMapAppend m fp i) fp' = fpMapGet m fp' := by
  rw [fpMapAppend]
  by_cases hany : m.any (fun p => p.1 == fp) = true
  · rw [if_pos hany]
    apply fpMapGet_map_ne _ fp' (fun q => by split <;> rfl)
    intro q hq
    rw [if_neg]
    intro hc
    exact h ((eq_of_beq hq).symm.trans (eq_of_beq hc))
  · rw [if_neg hany]
    clear hany
    induction m with
    | nil =>
      rw [List.nil_append, fpMapGet_cons_neg (fp, [i]) [] fp' (by simp [Ne.symm h])]
    | cons p m ih =>
      rw [List.cons_append]
      by_cases hp : (p.1 == fp') = true
      · rw [fpMapGet_cons_pos _ _ fp' hp, fpMapGet_cons_pos p m fp' hp]
      · rw [fpMapGet_cons_neg _ _ fp' (by simpa using hp),
          fpMapGet_cons_neg p m fp' (by simpa using hp), ih]

theorem fpMapPop_eq_map (m : FpMap) (fp : String) :
    fpMapPop m fp = m.map (fun q => if q.1 == fp then (q.1, q.2.tail) else q) := rfl

theorem fpMapGet_fpMapPop_same (m : FpMap) (fp : String) :
    fpMapGet (fpMapPop m fp) fp = (fpMapGet m fp).tail := by
  rw [fpMapPop_eq_map]
  rw [fpMapGet_map_snd _ fp (fun l => l.tail) (fun q => by split <;> rfl)
    (fun q hq => by rw [if_pos hq])]
  rw [fpMapGet]
  cases hfind : m.find? (fun q => q.1 == fp) with
  | none => rfl
  | some q => rfl

theorem fpMapGet_fpMapPop_ne (m : FpMap) (fp fp' : String) (h : fp' ≠ fp) :
    fpMapGet (fpMapPop m fp) fp' = fpMapGet m fp' := by
  rw [fpMapPop_eq_map]
  apply fpMapGet_map_ne _ fp' (fun q => by split <;> rfl)
  intro q hq
  rw [if_neg]
  intro hc
  exact h ((eq_of_beq hq).symm.trans (eq_of_beq hc))

theorem fpKeys_fpMapPop (m : FpMap) (fp : String) : fpKeys (fpMapPop m fp) = fpKeys m := by
  rw [fpMapPop_eq_map]
  exact fpKeys_map _ (fun q => by split <;> rfl) m

theorem fpMapIds_cons (p : String × List Nat) (m : FpMap) :
    fpMapIds (p :: m) = p.2 ++ fpMapIds m := by
  rw [fpMapIds, fpMapIds, List.map_cons, List.flatten_cons]

theorem fpMapIds_append_list (m m2 : FpMap) :
    fpMapIds (m ++ m2) = fpMapIds m ++ fpMapIds m2 := by
  rw [fpMapIds, fpMapIds, fpMapIds, List.map_append, List.flatten_append]

theorem fpMapIds_fpMapAppend_perm (fp : String) (i : Nat) :
    ∀ (m : FpMap), (fpKeys m).Nodup →
      (fpMapIds (fpMapAppend m fp i)).Perm (fpMapIds m ++ [i]) := by
  intro m
  induction m with
  | nil =>
    intro hnd
    rw [fpMapAppend]
    simp [fpMapIds]
  | cons p m ih =>
    intro hnd
    have hnd2 : (fpKeys m).Nodup := (List.nodup_cons.1 (by simpa [fpKeys] using hnd)).2
    have hnotin : p.1 ∉ fpKeys m := (List.nodup_cons.1 (by simpa [fpKeys] using hnd)).1
    rw [fpMapAppend]
    by_cases hany : (p :: m).any (fun q => q.1 == fp) = true
    · rw [if_pos hany, List.map_cons]
      by_cases hp : (p.1 == fp) = true
      · have hrest : ∀ q ∈ m, (q.1 == fp) = false := by
          intro q hq
          simp only [beq_eq_false_iff_ne]
          intro hc
          apply hnotin
          rw [eq_of_beq hp, ← hc]
          exact List.mem_map_of_mem _ hq
        rw [if_pos hp,
          mapBucket_id_of_none _ fp (fun q hq => by rw [if_neg (by simp [hq])]) m hrest,
          fpMapIds_cons, fpMapIds_cons]
        simp only
        have h1 : p.2 ++ [i] ++ fpMapIds m = p.2 ++ ([i] ++ fpMapIds m) := by
          rw [List.append_assoc]
        rw [h1]
        have h2 : ([i] ++ fpMapIds m).Perm (fpMapIds m ++ [i]) := List.perm_append_comm
        have h3 := h2.append_left p.2
        have h4 : p.2 ++ (fpMapIds m ++ [i]) = p.2 ++ fpMapIds m ++ [i] := by
          rw [List.append_assoc]
        rw [h4] at h3
        exact h3
      · have hany2 : m.any (fun q => q.1 == fp) = true := by
          rcases List.any_eq_true.1 hany with ⟨q, hq, hqt⟩
          rcases List.mem_cons.1 hq with rfl | hq2
          · exact absurd hqt (by simp [hp])
          · exact List.any_eq_true.2 ⟨q, hq2, hqt⟩
        rw [if_neg hp, fpMapIds_cons, fpMapIds_cons]
        have hih := ih hnd2
        rw [fpMapAppend, if_pos hany2] at hih
        have h3 := hih.append_left p.2
        have h4 : p.2 ++ (fpMapIds m ++ [i]) = p.2 ++ fpMapIds m ++ [i] := by
          rw [List.append_assoc]
        rw [h4] at h3
        exact h3
    · rw [if_neg hany, List.cons_append, fpMapIds_cons, fpMapIds_cons, fpMapIds_append_list]
      simp [fpMapIds, List.append_assoc]

theorem fpMapIds_fpMapPop_perm (fp : String) (i : Nat) (rest : List Nat) :
    ∀ (m : FpMap), (fpKeys m).Nodup → fpMapGet m fp = i :: rest →
      (fpMapIds m).Perm (i :: fpMapIds (fpMapPop m fp)) := by
  intro m
  induction m with
  | nil =>
    intro hnd hget
    rw [fpMapGet_nil] at hget
    exact absurd hget (by simp)
  | cons p m ih =>
    intro hnd hget
    have hnd2 : (fpKeys m).Nodup := (List.nodup_cons.1 (by simpa [fpKeys] using hnd)).2
    have hnotin : p.1 ∉ fpKeys m := (List.nodup_cons.1 (by simpa [fpKeys] using hnd)).1
    rw [fpMapPop_eq_map, List.map_cons]
    by_cases hp : (p.1 == fp) = true
    · rw [fpMapGet_cons_pos p m fp hp] at hget
      have hrest : ∀ q ∈ m, (q.1 == fp) = false := by
        intro q hq
        simp only [beq_eq_false_iff_ne]
        intro hc
        apply hnotin
        rw [eq_of_beq hp, ← hc]
        exact List.mem_map_of_mem _ hq
      rw [if_pos hp,
        mapBucket_id_of_none _ fp (fun q hq => by rw [if_neg (by simp [hq])]) m hrest,
        fpMapIds_cons, fpMapIds_cons, hget]
      simp
    · rw [fpMapGet_cons_neg p m fp (by simpa using hp)] at hget
      rw [if_neg hp, fpMapIds_cons, fpMapIds_cons]
      have hih := ih hnd2 hget
      rw [fpMapPop_eq_map] at hih
      exact (hih.append_left p.2).trans List.perm_middle

/-- The three invariants of `buildFpMap`, generalized over the fold
accumulator: pairwise-distinct keys, identifier conservation, and
correct bucket labelling. -/
theorem buildFold_spec (cols : List String) :
    ∀ (l : List DbRow) (m : FpMap), (fpKeys m).Nodup →
      (fpKeys (l.foldl (fun m2 r => fpMapAppend m2 (dbRowFp cols r) r.id) m)).Nodup
      ∧ (fpMapIds (l.foldl (fun m2 r => fpMapAppend m2 (dbRowFp cols r) r.id) m)).Perm
          (fpMapIds m ++ l.map (fun r => r.id))
      ∧ (∀ fp i, i ∈ fpMapGet (l.foldl (fun m2 r => fpMapAppend m2 (dbRowFp cols r) r.id) m) fp →
          i ∈ fpMapGet m fp ∨ ∃ r ∈ l, r.id = i ∧ dbRowFp cols r = fp) := by
  intro l
  induction l with
  | nil =>
    intro m hnd
    refine ⟨hnd, by simp, ?_⟩
    intro fp i hmem
    exact Or.inl hmem
  | cons r l ih =>
    intro m hnd
    rw [List.foldl_cons]
    have hnd1 : (fpKeys (fpMapAppend m (dbRowFp cols r) r.id)).Nodup :=
      fpKeys_fpMapAppend_nodup m _ r.id hnd
    obtain ⟨ihnd, ihperm, ihmem⟩ := ih (fpMapAppend m (dbRowFp cols r) r.id) hnd1
    refine ⟨ihnd, ?_, ?_⟩
    · have hstep := fpMapIds_fpMapAppend_perm (dbRowFp cols r) r.id m hnd
      have h2 := hstep.append_right (l.map (fun r2 => r2.id))
      have h3 := ihperm.trans h2
      rw [List.append_assoc] at h3
      simpa using h3
    · intro fp i hmem
      rcases ihmem fp i hmem with hin | ⟨r2, hr2, hid, hfp⟩
      · by_cases hfp : fp = dbRowFp cols r
        · subst hfp
          rw [fpMapGet_fpMapAppend_same] at hin
          rcases List.mem_append.1 hin with hin2 | hin2
          · exact Or.inl hin2
          · right
            exact ⟨r, List.mem_cons_self r l, (List.mem_singleton.1 hin2).symm, rfl⟩
        · rw [fpMapGet_fpMapAppend_ne _ _ _ hfp] at hin
          exact Or.inl hin
      · exact Or.inr ⟨r2, List.mem_cons_of_mem r hr2, hid, hfp⟩

theorem buildFpMap_nodup (cols : List String) (existing : Table) :
    (fpKeys (buildFpMap cols existing)).Nodup :=
  (buildFold_spec cols existing [] (by simp [fpKeys])).1

theorem buildFpMap_ids_perm (cols : List String) (existing : Table) :
    (fpMapIds (buildFpMap cols existing)).Perm (existing.map (fun r => r.id)) := by
  have h := (buildFold_spec cols existing [] (by simp [fpKeys])).2.1
  simpa [fpMapIds] using h

theorem buildFpMap_mem (cols : List String) (existing : Table) (fp : String) (i : Nat)
    (h : i ∈ fpMapGet (buildFpMap cols existing) fp) :
    ∃ r ∈ existing, r.id = i ∧ dbRowFp cols r = fp := by
  have h2 := (buildFold_spec cols existing [] (by simp [fpKeys])).2.2 fp i h
  rcases h2 with hin | hex
  · rw [fpMapGet_nil] at hin
    exact absurd hin (List.not_mem_nil i)
  · exact hex

/-! ## Reconciliation lemmas: the matching loop (step 3) -/

/-- The per-row loop of step 3 equals its pure decision view: the
final fingerprint map, the matched pairs appended to the matched set,
the pending rows appended to the pending list, and the match
`UPDATE`s applied to the table. -/
theorem applyUpdates_cons (fn : DRow → DbRow → DbRow) (p : Nat × DRow)
    (ps : List (Nat × DRow)) (T : Table) :
    applyUpdates fn (p :: ps) T = applyUpdates fn ps (updateById T p.1 (fn p.2)) := rfl

theorem matchFold_spec (cols : List String) :
    ∀ (R : List DRow) (m : FpMap) (mt : List Nat) (pd : List DRow) (T : Table),
      R.foldl (matchStep cols) ⟨m, mt, pd, T⟩ =
        ⟨(mlDecide cols m R).1,
         mt ++ ((mlDecide cols m R).2.1).map (fun p => p.1),
         pd ++ (mlDecide cols m R).2.2,
         applyUpdates (matchFn cols) ((mlDecide cols m R).2.1) T⟩ := by
  intro R
  induction R with
  | nil =>
    intro m mt pd T
    simp [mlDecide, applyUpdates]
  | cons row R ih =>
    intro m mt pd T
    rw [List.foldl_cons, matchStep, mlDecide]
    cases hget : fpMapGet m (dfRowFp cols row) with
    | nil =>
      simp only [hget]
      rw [ih]
      simp [List.append_assoc]
    | cons i rest =>
      simp only [hget]
      rw [ih]
      simp only [MatchSt.mk.injEq, List.map_cons, applyUpdates_cons, matchedUpdate]
      refine ⟨trivial, ?_, trivial, trivial⟩
      rw [List.append_assoc]
      rfl

theorem mlDecide_perm (cols : List String) :
    ∀ (R : List DRow) (m : FpMap),
      (((mlDecide cols m R).2.1.map (fun p => p.2)) ++ (mlDecide cols m R).2.2).Perm R := by
  intro R
  induction R with
  | nil => intro m; simp [mlDecide]
  | cons row R ih =>
    intro m
    rw [mlDecide]
    cases hget : fpMapGet m (dfRowFp cols row) with
    | nil =>
      simp only [hget]
      exact List.perm_middle.trans ((ih m).cons row)
    | cons i rest =>
      simp only [hget, List.map_cons, List.cons_append]
      exact (ih (fpMapPop m (dfRowFp cols row))).cons row

theorem mlDecide_conservation (cols : List String) :
    ∀ (R : List DRow) (m : FpMap), (fpKeys m).Nodup →
      ((mlDecide cols m R).2.1.map (fun p => p.1) ++ fpMapIds (mlDecide cols m R).1).Perm
        (fpMapIds m) := by
  intro R
  induction R with
  | nil => intro m hnd; simp [mlDecide]
  | cons row R ih =>
    intro m hnd
    rw [mlDecide]
    cases hget : fpMapGet m (dfRowFp cols row) with
    | nil =>
      simp only [hget]
      exact ih m hnd
    | cons i rest =>
      simp only [hget, List.map_cons, List.cons_append]
      have hnd2 : (fpKeys (fpMapPop m (dfRowFp cols row))).Nodup := by
        rw [fpKeys_fpMapPop]
        exact hnd
      have hih := ih (fpMapPop m (dfRowFp cols row)) hnd2
      have hpop := fpMapIds_fpMapPop_perm (dfRowFp cols row) i rest m hnd hget
      exact (hih.cons i).trans hpop.symm

theorem mlDecide_pairs_mem (cols : List String) (Q : String → Nat → Prop) :
    ∀ (R : List DRow) (m : FpMap), (∀ fp i, i ∈ fpMapGet m fp → Q fp i) →
      ∀ p ∈ (mlDecide cols m R).2.1, Q (dfRowFp cols p.2) p.1 := by
  intro R
  induction R with
  | nil =>
    intro m hQ p hp
    rw [mlDecide] at hp
    exact absurd hp (List.not_mem_nil p)
  | cons row R ih =>
    intro m hQ p hp
    rw [mlDecide] at hp
    cases hget : fpMapGet m (dfRowFp cols row) with
    | nil =>
      rw [hget] at hp
      simp only at hp
      exact ih m hQ p hp
    | cons i rest =>
      rw [hget] at hp
      simp only at hp
      rcases List.mem_cons.1 hp with rfl | hp2
      · exact hQ _ i (by rw [hget]; exact List.mem_cons_self i rest)
      · refine ih (fpMapPop m (dfRowFp cols row)) ?_ p hp2
        intro fp i2 hi2
        by_cases hfp : fp = dfRowFp cols row
        · subst hfp
          rw [fpMapGet_fpMapPop_same] at hi2
          exact hQ _ i2 ((List.tail_sublist _).subset hi2)
        · rw [fpMapGet_fpMapPop_ne m (dfRowFp cols row) fp hfp] at hi2
          exact hQ fp i2 hi2

/-! ## Reconciliation lemmas: the slot loop (step 5) -/

/-- The pending-row loop of step 5 equals its split view: the leading
spare identifiers are overwritten pairwise with the leading pending
rows, the remaining pending rows are inserted as brand-new rows, and
the unconsumed spare identifiers are returned. -/
theorem slotFold_spec (cols : List String) :
    ∀ (pend : List DRow) (spare : List Nat) (T : Table),
      pend.foldl (slotStep cols) (spare, T) =
        (spare.drop pend.length,
         appendNew (applyUpdates owFn (spare.zip pend) T) (pend.drop spare.length)) := by
  intro pend
  induction pend with
  | nil =>
    intro spare T
    simp [appendNew, applyUpdates]
  | cons row pend ih =>
    intro spare T
    rw [List.foldl_cons, slotStep]
    cases spare with
    | nil =>
      simp only
      rw [ih [] _]
      simp [applyUpdates, appendNew]
    | cons i spare2 =>
      simp only
      rw [ih spare2 _]
      rfl


/-! ## The normal form of `processUid` -/

theorem softDeleteIds_nil (T : Table) : softDeleteIds T [] = T := by
  rw [softDeleteIds]
  have hpt : ∀ r ∈ T, sdFn [] r = id r := by
    intro r hr
    rw [sdFn_not_mem [] r (List.not_mem_nil r.id), id]
  rw [List.map_congr_left hpt, List.map_id]

theorem processUid_eq_view (cols : List String) (T : Table) (uid : Option PVal)
    (rows : List DRow) : processUid cols T uid rows = processUidView cols T uid rows := by
  simp only [processUid, processUidView]
  rw [matchFold_spec]
  simp only [List.nil_append]
  rw [slotFold_spec]
  simp only
  rw [appendNew_eq]
  by_cases hsp : (((selectActive cols T uid).map (fun r => r.id)).filter
      (fun i => !(((mlDecide cols (buildFpMap cols (selectActive cols T uid)) rows).2.1.map
        (fun p => p.1)).contains i))).drop
      (mlDecide cols (buildFpMap cols (selectActive cols T uid)) rows).2.2.length = []
  · rw [hsp]
    simp only [List.isEmpty_nil, if_true]
    rw [softDeleteIds_nil]
  · rw [if_neg (by simpa [List.isEmpty_iff] using hsp)]

/-! ## Counting and membership helpers -/

theorem map_fst_zip_take {α β : Type} : ∀ (l1 : List α) (l2 : List β),
    (l1.zip l2).map (fun p => p.1) = l1.take l2.length := by
  intro l1
  induction l1 with
  | nil => intro l2; simp
  | cons a l1 ih =>
    intro l2
    cases l2 with
    | nil => simp
    | cons b l2 => simp [ih l2]

theorem map_snd_zip_take {α β : Type} : ∀ (l1 : List α) (l2 : List β),
    (l1.zip l2).map (fun p => p.2) = l2.take l1.length := by
  intro l1
  induction l1 with
  | nil => intro l2; simp
  | cons a l1 ih =>
    intro l2
    cases l2 with
    | nil => simp
    | cons b l2 => simp [ih l2]

/-- Counting the rows whose identifier lies in a duplicate-free subset
of the table's (duplicate-free) identifiers counts that subset. -/
theorem countP_mem_ids (T : Table) (S : List Nat) (hS : S.Nodup)
    (hsub : ∀ i ∈ S, i ∈ idsOf T) (hT : (idsOf T).Nodup) :
    T.countP (fun r => S.contains r.id) = S.length := by
  have h1 : T.countP (fun r => S.contains r.id)
      = (idsOf T).countP (fun i => S.contains i) := by
    rw [idsOf, List.countP_map]
    rfl
  rw [h1, List.countP_eq_length_filter]
  have hperm : ((idsOf T).filter (fun i => S.contains i)).Perm S := by
    apply (List.perm_ext_iff_of_nodup (hT.filter _) hS).2
    intro i
    constructor
    · intro hmem
      have h2 := List.of_mem_filter hmem
      simpa using h2
    · intro hmem
      refine List.mem_filter.2 ⟨hsub i hmem, ?_⟩
      simpa using hmem
  exact hperm.length_eq

theorem eq_of_mem_id (T : Table) (hT : (idsOf T).Nodup) (r r' : DbRow)
    (hr : r ∈ T) (hr' : r' ∈ T) (h : r.id = r'.id) : r = r' :=
  List.inj_on_of_nodup_map hT hr hr' h

theorem contains_true_of_mem {α : Type} [BEq α] [LawfulBEq α] {l : List α} {a : α}
    (h : a ∈ l) : l.contains a = true :=
  List.elem_eq_true_of_mem h

theorem contains_false_of_not_mem {α : Type} [BEq α] [LawfulBEq α] {l : List α} {a : α}
    (h : a ∉ l) : l.contains a = false := by
  cases hc : l.contains a with
  | false => rfl
  | true => exact absurd (List.mem_of_elem_eq_true hc) h

/-- Master counting lemma for the normal form of one `processUid`
call, stated over abstract decision pieces.  `E` is the fetched active
row set for key `u`, `pairs` the matched (identifier, incoming row)
pairs, `pend` the pending rows.  The active rows for `u` afterwards
are counted, fingerprint class by fingerprint class, by the matched
and pending incoming rows. -/
theorem countP_pieces (cols : List String) (T : Table) (u : Option PVal)
    (g : String → Bool)
    (E : Table) (pairs : List (Nat × DRow)) (pend : List DRow)
    (spare : List Nat) (T2 : Table)
    (hnd : (idsOf T).Nodup)
    (hE : E.Perm (T.filter (fun r => dbRowUid cols r == u && r.is_deleted == false)))
    (hEIds_nodup : (E.map (fun r => r.id)).Nodup)
    (hmatched_nodup : (pairs.map (fun p => p.1)).Nodup)
    (hmatched_sub : ∀ i ∈ pairs.map (fun p => p.1), i ∈ E.map (fun r => r.id))
    (hpairsE : ∀ p ∈ pairs, ∃ r ∈ E, r.id = p.1 ∧ dbRowFp cols r = dfRowFp cols p.2)
    (hpendu : ∀ row ∈ pend, dfRowUid cols row = u)
    (hspare : spare = (E.map (fun r => r.id)).filter
      (fun i => !((pairs.map (fun p => p.1)).contains i)))
    (hT2 : T2 = applyUpdates owFn (spare.zip pend) (applyUpdates (matchFn cols) pairs T)) :
    (softDeleteIds (T2 ++ newRowsFrom (maxId T2) (pend.drop spare.length))
        (spare.drop pend.length)).countP
        (fun r => dbRowUid cols r == u && r.is_deleted == false && g (dbRowFp cols r))
      = (pairs.map (fun p => p.2) ++ pend).countP (fun row => g (dfRowFp cols row)) := by
  -- row-level facts about the fetched set
  have hEmem : ∀ r ∈ E, r ∈ T ∧ dbRowUid cols r = u ∧ r.is_deleted = false := by
    intro r hr
    have hm := hE.mem_iff.1 hr
    have h1 := List.mem_of_mem_filter hm
    have h2 := List.of_mem_filter hm
    simp only [Bool.and_eq_true, beq_iff_eq] at h2
    exact ⟨h1, h2.1, h2.2⟩
  have hEIds_sub : ∀ i ∈ E.map (fun r => r.id), i ∈ idsOf T := by
    intro i hi
    obtain ⟨r, hr, rfl⟩ := List.mem_map.1 hi
    exact List.mem_map_of_mem _ (hEmem r hr).1
  -- spare facts
  have hspare_nodup : spare.Nodup := by
    rw [hspare]
    exact hEIds_nodup.filter _
  have hspare_subE : ∀ i ∈ spare, i ∈ E.map (fun r => r.id) := by
    rw [hspare]
    exact fun i h => List.mem_of_mem_filter h
  have hspare_not_matched : ∀ i ∈ spare, i ∉ pairs.map (fun p => p.1) := by
    rw [hspare]
    intro i h hc
    have h2 := List.of_mem_filter h
    simp only [Bool.not_eq_eq_eq_not, Bool.not_true] at h2
    rw [contains_true_of_mem hc] at h2
    exact Bool.true_eq_false.mp h2
  have hEIds_split : ∀ i ∈ E.map (fun r => r.id),
      i ∈ pairs.map (fun p => p.1) ∨ i ∈ spare := by
    intro i h
    by_cases hm : i ∈ pairs.map (fun p => p.1)
    · exact Or.inl hm
    · right
      rw [hspare]
      refine List.mem_filter.2 ⟨h, ?_⟩
      rw [contains_false_of_not_mem hm]
      rfl
  -- overwrite-pair facts
  have how_fst : (spare.zip pend).map (fun p => p.1) = spare.take pend.length :=
    map_fst_zip_take spare pend
  have how_snd : (spare.zip pend).map (fun p => p.2) = pend.take spare.length :=
    map_snd_zip_take spare pend
  have howIds_nodup : ((spare.zip pend).map (fun p => p.1)).Nodup := by
    rw [how_fst]
    exact (List.take_sublist _ _).nodup hspare_nodup
  have how_mem : ∀ p ∈ spare.zip pend, p.1 ∈ spare ∧ p.2 ∈ pend := by
    intro p hp
    obtain ⟨a, b⟩ := p
    exact List.of_mem_zip hp
  have hdisj_ow_spare2 : ∀ i ∈ (spare.zip pend).map (fun p => p.1),
      i ∉ spare.drop pend.length := by
    rw [how_fst]
    intro i hi hc
    exact (List.disjoint_take_drop hspare_nodup (Nat.le_refl _)) hi hc
  have hspare2_sub : ∀ i ∈ spare.drop pend.length, i ∈ spare :=
    fun i h => (List.drop_subset _ _) h
  -- identifier evolution
  have hT1_ids : idsOf (applyUpdates (matchFn cols) pairs T) = idsOf T := by
    rw [applyUpdates_eq_map]
    exact idsOf_map _ (applyPairs_id _ (fun row r => matchFn_id cols row r) pairs) T
  have hT2_ids : idsOf T2 = idsOf T := by
    rw [hT2, applyUpdates_eq_map,
      idsOf_map _ (applyPairs_id owFn (fun row r => rfl) (spare.zip pend)) _, hT1_ids]
  have hmax2 : maxId T2 = maxId T := maxId_congr _ _ hT2_ids
  -- the witness-id list for the count
  have hidsTrue_nodup :
      ((pairs.filter (fun p => g (dfRowFp cols p.2))).map (fun p => p.1)
        ++ ((spare.zip pend).filter (fun p => g (dfRowFp cols p.2))).map
            (fun p => p.1)).Nodup := by
    rw [List.nodup_append]
    refine ⟨((List.filter_sublist pairs).map _).nodup hmatched_nodup,
      ((List.filter_sublist _).map _).nodup howIds_nodup, ?_⟩
    intro i hi1 hi2
    obtain ⟨p1, hp1, rfl⟩ := List.mem_map.1 hi1
    obtain ⟨p2, hp2, he⟩ := List.mem_map.1 hi2
    have hm1 : p1.1 ∈ pairs.map (fun p => p.1) :=
      List.mem_map_of_mem _ (List.mem_of_mem_filter hp1)
    have hm2 : p2.1 ∈ spare := (how_mem p2 (List.mem_of_mem_filter hp2)).1
    rw [he] at hm2
    exact hspare_not_matched p1.1 hm2 hm1
  have hidsTrue_sub : ∀ i ∈ (pairs.filter (fun p => g (dfRowFp cols p.2))).map (fun p => p.1)
      ++ ((spare.zip pend).filter (fun p => g (dfRowFp cols p.2))).map (fun p => p.1),
      i ∈ idsOf T := by
    intro i hi
    rcases List.mem_append.1 hi with hi | hi
    · obtain ⟨p1, hp1, rfl⟩ := List.mem_map.1 hi
      exact hEIds_sub _ (hmatched_sub _ (List.mem_map_of_mem _ (List.mem_of_mem_filter hp1)))
    · obtain ⟨p2, hp2, rfl⟩ := List.mem_map.1 hi
      exact hEIds_sub _ (hspare_subE _ ((how_mem p2 (List.mem_of_mem_filter hp2)).1))
  -- the pointwise classification of the table part
  have hpoint : ∀ r ∈ T,
      (dbRowUid cols (sdFn (spare.drop pend.length)
            (applyPairs owFn (spare.zip pend) (applyPairs (matchFn cols) pairs r))) == u
        && (sdFn (spare.drop pend.length)
            (applyPairs owFn (spare.zip pend)
              (applyPairs (matchFn cols) pairs r))).is_deleted == false
        && g (dbRowFp cols (sdFn (spare.drop pend.length)
            (applyPairs owFn (spare.zip pend) (applyPairs (matchFn cols) pairs r)))))
      = ((pairs.filter (fun p => g (dfRowFp cols p.2))).map (fun p => p.1)
          ++ ((spare.zip pend).filter (fun p => g (dfRowFp cols p.2))).map
              (fun p => p.1)).contains r.id := by
    intro r hr
    by_cases hA : r.id ∈ pairs.map (fun p => p.1)
    · -- matched row: refreshed in place, fingerprint preserved
      obtain ⟨pr, hpr, hpr1⟩ := List.mem_map.1 hA
      have h1 : applyPairs (matchFn cols) pairs r = matchFn cols pr.2 r := by
        apply applyPairs_mem (matchFn cols) (fun row r => matchFn_id cols row r) pairs
          hmatched_nodup pr.1 pr.2 (by rw [Prod.mk.eta]; exact hpr) r hpr1.symm
      have h2 : applyPairs owFn (spare.zip pend) (matchFn cols pr.2 r)
          = matchFn cols pr.2 r := by
        apply applyPairs_not_mem
        intro q hq
        rw [matchFn_id]
        intro hc
        exact hspare_not_matched q.1 (how_mem q hq).1 (hc ▸ hA)
      have h3 : sdFn (spare.drop pend.length) (matchFn cols pr.2 r)
          = matchFn cols pr.2 r := by
        apply sdFn_not_mem
        rw [matchFn_id]
        intro hc
        exact hspare_not_matched r.id (hspare2_sub _ hc) hA
      obtain ⟨e, he, heid, hefp⟩ := hpairsE pr hpr
      have hre : r = e := eq_of_mem_id T hnd r e hr (hEmem e he).1 (heid.trans hpr1).symm
      have hur : dbRowUid cols r = u := by rw [hre]; exact (hEmem e he).2.1
      have hfr : dbRowFp cols r = dfRowFp cols pr.2 := by rw [hre]; exact hefp
      rw [h1, h2, h3, matchFn_uid, matchFn_is_deleted, matchFn_fp, hur, hfr]
      cases hg : g (dfRowFp cols pr.2) with
      | true =>
        have hmem : r.id ∈ (pairs.filter (fun p => g (dfRowFp cols p.2))).map (fun p => p.1)
            ++ ((spare.zip pend).filter (fun p => g (dfRowFp cols p.2))).map
                (fun p => p.1) := by
          apply List.mem_append_left
          rw [← hpr1]
          exact List.mem_map_of_mem _ (List.mem_filter.2 ⟨hpr, hg⟩)
        rw [contains_true_of_mem hmem]
        simp
      | false =>
        have hnot : r.id ∉ (pairs.filter (fun p => g (dfRowFp cols p.2))).map (fun p => p.1)
            ++ ((spare.zip pend).filter (fun p => g (dfRowFp cols p.2))).map
                (fun p => p.1) := by
          intro hc
          rcases List.mem_append.1 hc with hc1 | hc2
          · obtain ⟨pr2, hpr2, hpr21⟩ := List.mem_map.1 hc1
            have hpr2p : pr2 ∈ pairs := List.mem_of_mem_filter hpr2
            have hpe : pr2 = pr := List.inj_on_of_nodup_map hmatched_nodup hpr2p hpr
              (by rw [hpr21, hpr1])
            rw [hpe] at hpr2
            have hgt := List.of_mem_filter hpr2
            rw [hg] at hgt
            exact Bool.false_ne_true hgt
          · obtain ⟨q, hq, hq1⟩ := List.mem_map.1 hc2
            have hqs : q.1 ∈ spare := (how_mem q (List.mem_of_mem_filter hq)).1
            rw [hq1] at hqs
            exact hspare_not_matched r.id hqs hA
        rw [contains_false_of_not_mem hnot]
        simp
    · by_cases hB : r.id ∈ (spare.zip pend).map (fun p => p.1)
      · -- spare slot reused: overwritten with an incoming pending row
        obtain ⟨q, hq, hq1⟩ := List.mem_map.1 hB
        have h1 : applyPairs (matchFn cols) pairs r = r := by
          apply applyPairs_not_mem
          intro p hp hc
          exact hA (hc ▸ List.mem_map_of_mem _ hp)
        have h2 : applyPairs owFn (spare.zip pend) r = owFn q.2 r := by
          apply applyPairs_mem owFn (fun row r => rfl) (spare.zip pend) howIds_nodup q.1 q.2
            (by rw [Prod.mk.eta]; exact hq) r hq1.symm
        have h3 : sdFn (spare.drop pend.length) (owFn q.2 r) = owFn q.2 r := by
          apply sdFn_not_mem
          intro hc
          exact hdisj_ow_spare2 r.id hB hc
        rw [h1, h2, h3, owFn_eq_mk, dbRowUid_mk, dbRowFp_mk,
          hpendu q.2 (how_mem q hq).2]
        cases hg : g (dfRowFp cols q.2) with
        | true =>
          have hmem : r.id ∈ (pairs.filter (fun p => g (dfRowFp cols p.2))).map (fun p => p.1)
              ++ ((spare.zip pend).filter (fun p => g (dfRowFp cols p.2))).map
                  (fun p => p.1) := by
            apply List.mem_append_right
            rw [← hq1]
            exact List.mem_map_of_mem _ (List.mem_filter.2 ⟨hq, hg⟩)
          rw [contains_true_of_mem hmem]
          simp
        | false =>
          have hnot : r.id ∉ (pairs.filter (fun p => g (dfRowFp cols p.2))).map (fun p => p.1)
              ++ ((spare.zip pend).filter (fun p => g (dfRowFp cols p.2))).map
                  (fun p => p.1) := by
            intro hc
            rcases List.mem_append.1 hc with hc1 | hc2
            · obtain ⟨pr2, hpr2, hpr21⟩ := List.mem_map.1 hc1
              exact hA (hpr21 ▸ List.mem_map_of_mem _ (List.mem_of_mem_filter hpr2))
            · obtain ⟨q2, hq2, hq21⟩ := List.mem_map.1 hc2
              have hq2z : q2 ∈ spare.zip pend := List.mem_of_mem_filter hq2
              have hqe : q2 = q := List.inj_on_of_nodup_map howIds_nodup hq2z hq
                (by rw [hq21, hq1])
              rw [hqe] at hq2
              have hgt := List.of_mem_filter hq2
              rw [hg] at hgt
              exact Bool.false_ne_true hgt
          rw [contains_false_of_not_mem hnot]
          simp
      · by_cases hC : r.id ∈ spare.drop pend.length
        · -- unconsumed spare slot: soft-deleted
          have h1 : applyPairs (matchFn cols) pairs r = r := by
            apply applyPairs_not_mem
            intro p hp hc
            exact hA (hc ▸ List.mem_map_of_mem _ hp)
          have h2 : applyPairs owFn (spare.zip pend) r = r := by
            apply applyPairs_not_mem
            intro q hq hc
            exact hB (hc ▸ List.mem_map_of_mem _ hq)
          have hnot : r.id ∉ (pairs.filter (fun p => g (dfRowFp cols p.2))).map (fun p => p.1)
              ++ ((spare.zip pend).filter (fun p => g (dfRowFp cols p.2))).map
                  (fun p => p.1) := by
            intro hc
            rcases List.mem_append.1 hc with hc1 | hc2
            · obtain ⟨pr2, hpr2, hpr21⟩ := List.mem_map.1 hc1
              exact hA (hpr21 ▸ List.mem_map_of_mem _ (List.mem_of_mem_filter hpr2))
            · obtain ⟨q2, hq2, hq21⟩ := List.mem_map.1 hc2
              exact hB (hq21 ▸ List.mem_map_of_mem _ (List.mem_of_mem_filter hq2))
          rw [h1, h2, sdFn_mem _ _ hC, contains_false_of_not_mem hnot]
          simp
        · -- untouched row: it cannot be an active row for key u
          have h1 : applyPairs (matchFn cols) pairs r = r := by
            apply applyPairs_not_mem
            intro p hp hc
            exact hA (hc ▸ List.mem_map_of_mem _ hp)
          have h2 : applyPairs owFn (spare.zip pend) r = r := by
            apply applyPairs_not_mem
            intro q hq hc
            exact hB (hc ▸ List.mem_map_of_mem _ hq)
          have hval : (dbRowUid cols r == u && r.is_deleted == false
              && g (dbRowFp cols r)) = false := by
            by_cases hu : dbRowUid cols r = u
            · by_cases hd : r.is_deleted = false
              · exfalso
                have hrE : r ∈ E := by
                  apply hE.mem_iff.2
                  exact List.mem_filter.2 ⟨hr, by simp [hu, hd]⟩
                rcases hEIds_split r.id (List.mem_map_of_mem _ hrE) with hm | hs
                · exact hA hm
                · have hsplit := List.take_append_drop pend.length spare
                  rw [← hsplit] at hs
                  rcases List.mem_append.1 hs with ht | hd2
                  · apply hB
                    rw [how_fst]
                    exact ht
                  · exact hC hd2
              · simp [hd]
            · simp [hu]
          have hnot : r.id ∉ (pairs.filter (fun p => g (dfRowFp cols p.2))).map (fun p => p.1)
              ++ ((spare.zip pend).filter (fun p => g (dfRowFp cols p.2))).map
                  (fun p => p.1) := by
            intro hc
            rcases List.mem_append.1 hc with hc1 | hc2
            · obtain ⟨pr2, hpr2, hpr21⟩ := List.mem_map.1 hc1
              exact hA (hpr21 ▸ List.mem_map_of_mem _ (List.mem_of_mem_filter hpr2))
            · obtain ⟨q2, hq2, hq21⟩ := List.mem_map.1 hc2
              exact hB (hq21 ▸ List.mem_map_of_mem _ (List.mem_of_mem_filter hq2))
          rw [h1, h2, sdFn_not_mem _ _ hC, hval, contains_false_of_not_mem hnot]
  -- assemble the count
  rw [softDeleteIds, List.countP_map, List.countP_append]
  have hTpart : (T2.countP ((fun r => dbRowUid cols r == u && r.is_deleted == false
        && g (dbRowFp cols r)) ∘ sdFn (spare.drop pend.length)))
      = ((pairs.filter (fun p => g (dfRowFp cols p.2))).map (fun p => p.1)
          ++ ((spare.zip pend).filter (fun p => g (dfRowFp cols p.2))).map
              (fun p => p.1)).length := by
    rw [hT2, applyUpdates_eq_map, applyUpdates_eq_map, List.map_map, List.countP_map]
    rw [← countP_mem_ids T _ hidsTrue_nodup hidsTrue_sub hnd]
    apply List.countP_congr
    intro r hr
    simp only [Function.comp_def]
    rw [hpoint r hr]
  have hNRpart : ((newRowsFrom (maxId T2) (pend.drop spare.length)).countP
        ((fun r => dbRowUid cols r == u && r.is_deleted == false
          && g (dbRowFp cols r)) ∘ sdFn (spare.drop pend.length)))
      = (pend.drop spare.length).countP (fun row => g (dfRowFp cols row)) := by
    apply countP_newRowsFrom
    intro row hrow i hi
    have hnotin : i ∉ spare.drop pend.length := by
      intro hc
      have h1 : i ∈ idsOf T := hEIds_sub _ (hspare_subE _ (hspare2_sub _ hc))
      obtain ⟨r2, hr2, hr2i⟩ := List.mem_map.1 h1
      have hle := le_maxId T r2 hr2
      rw [hmax2] at hi
      omega
    simp only [Function.comp_def]
    rw [sdFn_not_mem _ _ hnotin, dbRowUid_mk, dbRowFp_mk,
      hpendu row ((List.drop_subset _ _) hrow)]
    simp
  rw [hTpart, hNRpart, List.length_append, List.length_map, List.length_map,
    ← List.countP_eq_length_filter, ← List.countP_eq_length_filter]
  have how_count : (spare.zip pend).countP (fun p => g (dfRowFp cols p.2))
      = (pend.take spare.length).countP (fun row => g (dfRowFp cols row)) := by
    rw [← how_snd, List.countP_map]
    rfl
  have hpairs_count : pairs.countP (fun p => g (dfRowFp cols p.2))
      = (pairs.map (fun p => p.2)).countP (fun row => g (dfRowFp cols row)) := by
    rw [List.countP_map]
    rfl
  rw [how_count, hpairs_count, List.countP_append]
  have hfinal : (pend.take spare.length).countP (fun row => g (dfRowFp cols row))
      + (pend.drop spare.length).countP (fun row => g (dfRowFp cols row))
      = pend.countP (fun row => g (dfRowFp cols row)) := by
    rw [← List.countP_append, List.take_append_drop]
  omega

theorem blockFrom_append (s n m : Nat) :
    blockFrom s n ++ blockFrom (s + n) m = blockFrom s (n + m) := by
  rw [blockFrom, blockFrom, blockFrom, List.range_add, List.map_append, List.map_map]
  congr 1
  apply List.map_congr_left
  intro j hj
  simp [Function.comp_def]
  omega

/-! ## The per-key reconciliation counts -/

/-- After one `processUid` call for natural key `u`, the active rows
for `u` satisfying any fingerprint predicate `g` are counted exactly
by the incoming rows satisfying `g`: matching, slot reuse and
brand-new insertion together install precisely the incoming multiset
of fingerprints as the active content for `u`. -/
theorem processUid_countP (cols : List String) (T : Table) (u : Option PVal)
    (rows : List DRow) (g : String → Bool)
    (hnd : (idsOf T).Nodup)
    (hrows : ∀ row ∈ rows, dfRowUid cols row = u) :
    (processUid cols T u rows).countP
        (fun r => dbRowUid cols r == u && r.is_deleted == false && g (dbRowFp cols r))
      = rows.countP (fun row => g (dfRowFp cols row)) := by
  have hE := selectActive_perm cols T u
  have hfilnd : ((T.filter (fun r => dbRowUid cols r == u && r.is_deleted == false)).map
      (fun r => r.id)).Nodup := ((List.filter_sublist T).map _).nodup hnd
  have hEIds_nodup : ((selectActive cols T u).map (fun r => r.id)).Nodup :=
    (hE.map (fun r => r.id)).nodup_iff.2 hfilnd
  have hcons := mlDecide_conservation cols rows (buildFpMap cols (selectActive cols T u))
    (buildFpMap_nodup cols (selectActive cols T u))
  have hcat := hcons.trans (buildFpMap_ids_perm cols (selectActive cols T u))
  have hcatnd := hcat.nodup_iff.2 hEIds_nodup
  have hmatched_nodup : ((mlDecide cols (buildFpMap cols (selectActive cols T u)) rows).2.1.map
      (fun p => p.1)).Nodup := (List.sublist_append_left _ _).nodup hcatnd
  have hmatched_sub : ∀ i ∈ (mlDecide cols (buildFpMap cols (selectActive cols T u)) rows).2.1.map
      (fun p => p.1), i ∈ (selectActive cols T u).map (fun r => r.id) :=
    fun i hi => hcat.subset (List.mem_append_left _ hi)
  have hpairsE := mlDecide_pairs_mem cols
    (fun fp i => ∃ r ∈ selectActive cols T u, r.id = i ∧ dbRowFp cols r = fp) rows
    (buildFpMap cols (selectActive cols T u))
    (fun fp i h => buildFpMap_mem cols (selectActive cols T u) fp i h)
  have hpend : ∀ row ∈ (mlDecide cols (buildFpMap cols (selectActive cols T u)) rows).2.2,
      dfRowUid cols row = u :=
    fun row hrow => hrows row ((mlDecide_perm cols rows _).subset (List.mem_append_right _ hrow))
  rw [processUid_eq_view]
  simp only [processUidView]
  exact (countP_pieces cols T u g (selectActive cols T u)
      (mlDecide cols (buildFpMap cols (selectActive cols T u)) rows).2.1
      (mlDecide cols (buildFpMap cols (selectActive cols T u)) rows).2.2
      (((selectActive cols T u).map (fun r => r.id)).filter
        (fun i => !(((mlDecide cols (buildFpMap cols (selectActive cols T u)) rows).2.1.map
          (fun p => p.1)).contains i)))
      _ hnd hE hEIds_nodup hmatched_nodup hmatched_sub hpairsE hpend rfl rfl).trans
    ((mlDecide_perm cols rows _).countP_eq _)

/-- The match `UPDATE`s never change a stored row's natural key. -/
theorem applyPairs_matchFn_uid (cols : List String) :
    ∀ (ps : List (Nat × DRow)) (r : DbRow),
      dbRowUid cols (applyPairs (matchFn cols) ps r) = dbRowUid cols r := by
  intro ps
  induction ps with
  | nil => intro r; rfl
  | cons p ps ih =>
    intro r
    rw [applyPairs_cons]
    by_cases h : (r.id == p.1) = true
    · rw [if_pos h, ih, matchFn_uid]
    · rw [if_neg h, ih]

/-- After the spare-slot overwrite `UPDATE`s, a stored row either
keeps its natural key or carries the key of one of the written
incoming rows. -/
theorem applyPairs_owFn_uid (cols : List String) :
    ∀ (ps : List (Nat × DRow)) (r : DbRow),
      dbRowUid cols (applyPairs owFn ps r) = dbRowUid cols r
        ∨ ∃ p ∈ ps, dbRowUid cols (applyPairs owFn ps r) = dfRowUid cols p.2 := by
  intro ps
  induction ps with
  | nil => intro r; exact Or.inl rfl
  | cons p ps ih =>
    intro r
    rw [applyPairs_cons]
    by_cases h : (r.id == p.1) = true
    · rw [if_pos h]
      rcases ih (owFn p.2 r) with h1 | ⟨q, hq, h2⟩
      · right
        exact ⟨p, List.mem_cons_self p ps, by rw [h1, owFn_eq_mk, dbRowUid_mk]⟩
      · exact Or.inr ⟨q, List.mem_cons_of_mem p hq, h2⟩
    · rw [if_neg h]
      rcases ih r with h1 | ⟨q, hq, h2⟩
      · exact Or.inl h1
      · exact Or.inr ⟨q, List.mem_cons_of_mem p hq, h2⟩

/-- Every brand-new inserted row carries one of the pending incoming
rows as its content, and is born active. -/
theorem newRowsFrom_mem (rows : List DRow) : ∀ (b : Nat) (r : DbRow),
    r ∈ newRowsFrom b rows → ∃ i row, row ∈ rows ∧ r = ⟨i, row, false⟩ := by
  induction rows with
  | nil =>
    intro b r hr
    exact absurd hr (List.not_mem_nil r)
  | cons row rest ih =>
    intro b r hr
    rw [newRowsFrom] at hr
    rcases List.mem_cons.1 hr with h | h
    · exact ⟨b + 1, row, List.mem_cons_self row rest, h⟩
    · obtain ⟨i, row2, hm, he⟩ := ih (b + 1) r h
      exact ⟨i, row2, List.mem_cons_of_mem row hm, he⟩

/-- The frame counterpart of `countP_pieces`: the reconciliation steps
for natural key `u` leave the active-row counts of every other
natural key `k` untouched. -/
theorem countP_pieces_ne (cols : List String) (T : Table) (u k : Option PVal)
    (g : String → Bool) (E : Table) (pairs : List (Nat × DRow)) (pend : List DRow)
    (spare : List Nat) (T2 : Table)
    (hnd : (idsOf T).Nodup) (hku : k ≠ u)
    (hE : E.Perm (T.filter (fun r => dbRowUid cols r == u && r.is_deleted == false)))
    (hpairs_sub : ∀ p ∈ pairs, p.1 ∈ E.map (fun r => r.id))
    (hpendu : ∀ row ∈ pend, dfRowUid cols row = u)
    (hspare : spare = (E.map (fun r => r.id)).filter
      (fun i => !((pairs.map (fun p => p.1)).contains i)))
    (hT2 : T2 = applyUpdates owFn (spare.zip pend) (applyUpdates (matchFn cols) pairs T)) :
    (softDeleteIds (T2 ++ newRowsFrom (maxId T2) (pend.drop spare.length))
        (spare.drop pend.length)).countP
        (fun r => dbRowUid cols r == k && r.is_deleted == false && g (dbRowFp cols r))
      = T.countP
        (fun r => dbRowUid cols r == k && r.is_deleted == false && g (dbRowFp cols r)) := by
  have hEmem : ∀ r ∈ E, r ∈ T ∧ dbRowUid cols r = u ∧ r.is_deleted = false := by
    intro r hr
    have hm := hE.mem_iff.1 hr
    have h1 := List.mem_of_mem_filter hm
    have h2 := List.of_mem_filter hm
    simp only [Bool.and_eq_true, beq_iff_eq] at h2
    exact ⟨h1, h2.1, h2.2⟩
  -- a row of T whose natural key is k cannot carry an identifier of E
  have hknotE : ∀ r ∈ T, dbRowUid cols r = k → r.id ∉ E.map (fun r => r.id) := by
    intro r hr hk hc
    obtain ⟨e, he, hei⟩ := List.mem_map.1 hc
    have he2 := hEmem e he
    have hre : e = r := eq_of_mem_id T hnd e r he2.1 hr hei
    rw [hre] at he2
    exact hku (hk.symm.trans he2.2.1)
  rw [softDeleteIds, List.countP_map, List.countP_append]
  have hNR : ((newRowsFrom (maxId T2) (pend.drop spare.length)).countP
      ((fun r => dbRowUid cols r == k && r.is_deleted == false
        && g (dbRowFp cols r)) ∘ sdFn (spare.drop pend.length))) = 0 := by
    rw [List.countP_eq_zero]
    intro r hr
    obtain ⟨i, row, hrow, hre⟩ := newRowsFrom_mem _ _ r hr
    have hu : dfRowUid cols row = u := hpendu row ((List.drop_subset _ _) hrow)
    simp only [Function.comp_def, sdFn_uid, hre, dbRowUid_mk, hu]
    rw [beq_eq_false_iff_ne.2 (fun hc => hku hc.symm)]
    simp
  rw [hNR, Nat.add_zero, hT2, applyUpdates_eq_map, applyUpdates_eq_map, List.map_map,
    List.countP_map]
  apply List.countP_congr
  intro r hr
  simp only [Function.comp_def]
  by_cases hk : dbRowUid cols r = k
  · -- key-k rows are untouched by every step
    have hnotE := hknotE r hr hk
    have h1 : applyPairs (matchFn cols) pairs r = r := by
      apply applyPairs_not_mem
      intro p hp hc
      exact hnotE (hc ▸ hpairs_sub p hp)
    have h2 : applyPairs owFn (spare.zip pend) r = r := by
      apply applyPairs_not_mem
      intro q hq hc
      have hqs : q.1 ∈ spare := (List.of_mem_zip hq).1
      rw [hspare] at hqs
      exact hnotE (hc ▸ List.mem_of_mem_filter hqs)
    have h3 : sdFn (spare.drop pend.length) r = r := by
      apply sdFn_not_mem
      intro hc
      have hqs : r.id ∈ spare := (List.drop_subset _ _) hc
      rw [hspare] at hqs
      exact hnotE (List.mem_of_mem_filter hqs)
    rw [h1, h2, h3]
  · -- other rows may change, but never into key k
    have hul : dbRowUid cols (sdFn (spare.drop pend.length)
        (applyPairs owFn (spare.zip pend) (applyPairs (matchFn cols) pairs r))) ≠ k := by
      rw [sdFn_uid]
      rcases applyPairs_owFn_uid cols (spare.zip pend) (applyPairs (matchFn cols) pairs r)
        with h1 | ⟨q, hq, h2⟩
      · rw [h1, applyPairs_matchFn_uid]
        exact hk
      · rw [h2, hpendu q.2 ((List.of_mem_zip hq).2)]
        exact fun hc => hku hc.symm
    rw [beq_eq_false_iff_ne.2 hul, beq_eq_false_iff_ne.2 hk]
    simp

set_option maxHeartbeats 1000000 in
/-- Frame law of one `processUid` call: the active-row counts of
every natural key other than the processed one are unchanged. -/
theorem processUid_frame (cols : List String) (T : Table) (u : Option PVal)
    (rows : List DRow) (k : Option PVal) (g : String → Bool)
    (hnd : (idsOf T).Nodup) (hku : k ≠ u)
    (hrows : ∀ row ∈ rows, dfRowUid cols row = u) :
    (processUid cols T u rows).countP
        (fun r => dbRowUid cols r == k && r.is_deleted == false && g (dbRowFp cols r))
      = T.countP
        (fun r => dbRowUid cols r == k && r.is_deleted == false && g (dbRowFp cols r)) := by
  have hE := selectActive_perm cols T u
  have hpairs_sub : ∀ p ∈ (mlDecide cols (buildFpMap cols (selectActive cols T u)) rows).2.1,
      p.1 ∈ (selectActive cols T u).map (fun r => r.id) := by
    have hQ := mlDecide_pairs_mem cols
      (fun fp i => i ∈ (selectActive cols T u).map (fun r => r.id)) rows
      (buildFpMap cols (selectActive cols T u))
      (fun fp i h => by
        obtain ⟨r, hr, hri, _⟩ := buildFpMap_mem cols (selectActive cols T u) fp i h
        exact hri ▸ List.mem_map_of_mem _ hr)
    exact fun p hp => hQ p hp
  have hpend : ∀ row ∈ (mlDecide cols (buildFpMap cols (selectActive cols T u)) rows).2.2,
      dfRowUid cols row = u :=
    fun row hrow => hrows row ((mlDecide_perm cols rows _).subset (List.mem_append_right _ hrow))
  rw [processUid_eq_view]
  simp only [processUidView]
  exact countP_pieces_ne cols T u k g (selectActive cols T u)
    (mlDecide cols (buildFpMap cols (selectActive cols T u)) rows).2.1
    (mlDecide cols (buildFpMap cols (selectActive cols T u)) rows).2.2
    (((selectActive cols T u).map (fun r => r.id)).filter
      (fun i => !(((mlDecide cols (buildFpMap cols (selectActive cols T u)) rows).2.1.map
        (fun p => p.1)).contains i)))
    _ hnd hku hE hpairs_sub hpend rfl rfl

/-- Per-identifier updates through an identifier-preserving row
transformation keep the stored identifier sequence unchanged. -/
theorem applyUpdates_ids (fn : DRow → DbRow → DbRow) (hfn : ∀ row r, (fn row r).id = r.id)
    (ps : List (Nat × DRow)) (T : Table) : idsOf (applyUpdates fn ps T) = idsOf T := by
  rw [applyUpdates_eq_map]
  exact idsOf_map _ (fun r => applyPairs_id fn hfn ps r) T

/-- Identifier inventory of the reconciliation view: in-place updates
and the final soft-delete keep the identifier sequence, and the
brand-new rows extend it by a consecutive block one past the prior
maximum. -/
theorem ids_and_max_of_view (T2 T : Table) (pd : List DRow) (sp2 : List Nat)
    (hids : idsOf T2 = idsOf T) :
    ∃ n, idsOf (softDeleteIds (T2 ++ newRowsFrom (maxId T2) pd) sp2)
        = idsOf T ++ blockFrom (maxId T + 1) n
      ∧ maxId (softDeleteIds (T2 ++ newRowsFrom (maxId T2) pd) sp2) = maxId T + n := by
  have hm : maxId T2 = maxId T := maxId_congr _ _ hids
  refine ⟨pd.length, ?_, ?_⟩
  · rw [softDeleteIds, idsOf_map _ (fun r => sdFn_id _ r), idsOf_append, hids,
      newRowsFrom_ids, hm]
  · have h2 : maxId (softDeleteIds (T2 ++ newRowsFrom (maxId T2) pd) sp2)
        = maxId (T2 ++ newRowsFrom (maxId T2) pd) :=
      maxId_congr _ _ (idsOf_map _ (fun r => sdFn_id _ r) _)
    rw [h2, maxId_newRowsFrom_append, hm]
    cases pd with
    | nil => simp
    | cons row rest => simp

/-- One `processUid` call appends a consecutive block of brand-new
identifiers one past the prior table maximum and leaves the stored
identifier sequence otherwise unchanged; the table maximum advances
by the block length. -/
theorem processUid_ids (cols : List String) (T : Table) (u : Option PVal)
    (rows : List DRow) :
    ∃ n, idsOf (processUid cols T u rows) = idsOf T ++ blockFrom (maxId T + 1) n
      ∧ maxId (processUid cols T u rows) = maxId T + n := by
  rw [processUid_eq_view]
  simp only [processUidView]
  exact ids_and_max_of_view _ T _ _
    ((applyUpdates_ids owFn (fun row r => rfl) _ _).trans
      (applyUpdates_ids (matchFn cols) (fun row r => matchFn_id cols row r) _ T))

/-- Appending a consecutive identifier block one past the current
maximum preserves identifier uniqueness. -/
theorem ids_block_nodup (T : Table) (n : Nat) (hnd : (idsOf T).Nodup) :
    (idsOf T ++ blockFrom (maxId T + 1) n).Nodup := by
  rw [List.nodup_append]
  refine ⟨hnd, ?_, ?_⟩
  · rw [blockFrom]
    exact (List.nodup_range n).map (fun a b h => by omega)
  · intro i hi hc
    obtain ⟨r, hr, hri⟩ := List.mem_map.1 hi
    have hle := le_maxId T r hr
    rw [blockFrom] at hc
    obtain ⟨j, hj, hji⟩ := List.mem_map.1 hc
    omega

/-- The per-key fold of `_upsert_by_id`, over any duplicate-free key
list: the active count (refined by any fingerprint predicate) of a
processed key equals its incoming count, and that of an unprocessed
key is unchanged. -/
theorem upsert_fold_countP (cols : List String) (df : List DRow) (k : Option PVal)
    (g : String → Bool) :
    ∀ (us : List (Option PVal)) (T : Table), (idsOf T).Nodup → us.Nodup →
      (us.foldl (fun t uid => processUid cols t uid
          (df.filter (fun r => dfRowUid cols r == uid))) T).countP
          (fun r => dbRowUid cols r == k && r.is_deleted == false && g (dbRowFp cols r))
        = if us.contains k
          then (df.filter (fun r => dfRowUid cols r == k)).countP
            (fun row => g (dfRowFp cols row))
          else T.countP (fun r => dbRowUid cols r == k && r.is_deleted == false
            && g (dbRowFp cols r)) := by
  intro us
  induction us with
  | nil =>
    intro T hnd hus
    simp
  | cons u us ih =>
    intro T hnd hus
    rw [List.foldl_cons]
    have hnd' : (idsOf (processUid cols T u
        (df.filter (fun r => dfRowUid cols r == u)))).Nodup := by
      obtain ⟨n, hn, _⟩ := processUid_ids cols T u (df.filter (fun r => dfRowUid cols r == u))
      rw [hn]
      exact ids_block_nodup T n hnd
    have hrows : ∀ row ∈ df.filter (fun r => dfRowUid cols r == u), dfRowUid cols row = u := by
      intro row hrow
      have hb := List.of_mem_filter hrow
      exact eq_of_beq hb
    rw [ih _ hnd' (List.nodup_cons.1 hus).2]
    by_cases hc : us.contains k = true
    · rw [if_pos hc, if_pos (by rw [List.contains_cons, hc, Bool.or_true])]
    · rw [if_neg hc]
      by_cases hk : k = u
      · subst hk
        rw [processUid_countP cols T k (df.filter (fun r => dfRowUid cols r == k)) g hnd hrows]
        rw [if_pos (by rw [List.contains_cons]; simp)]
      · rw [processUid_frame cols T u (df.filter (fun r => dfRowUid cols r == u)) k g hnd hk
          hrows]
        rw [if_neg (by
          rw [List.contains_cons]
          simp only [Bool.or_eq_true]
          rintro (h1 | h2)
          · exact hk (eq_of_beq h1)
          · exact hc h2)]

/-- `_upsert_by_id` characterised per key: the active count of a key
in the incoming frame equals its incoming count; any other key's
active count is unchanged. -/
theorem upsert_by_id_countP (cols : List String) (T : Table) (df : List DRow)
    (k : Option PVal) (g : String → Bool) (hnd : (idsOf T).Nodup) :
    (upsert_by_id cols T df).countP
        (fun r => dbRowUid cols r == k && r.is_deleted == false && g (dbRowFp cols r))
      = if (uniqueUids cols df).contains k
        then (df.filter (fun r => dfRowUid cols r == k)).countP
          (fun row => g (dfRowFp cols row))
        else T.countP (fun r => dbRowUid cols r == k && r.is_deleted == false
          && g (dbRowFp cols r)) := by
  rw [upsert_by_id]
  exact upsert_fold_countP cols df k g (uniqueUids cols df) T hnd
    (uniqueFirst_nodup (df.map (dfRowUid cols)))

/-- The whole `_upsert_by_id` fold appends one consecutive block of
brand-new identifiers past the prior table maximum. -/
theorem upsert_fold_ids (cols : List String) (df : List DRow) :
    ∀ (us : List (Option PVal)) (T : Table),
      ∃ n, idsOf (us.foldl (fun t uid => processUid cols t uid
            (df.filter (fun r => dfRowUid cols r == uid))) T)
          = idsOf T ++ blockFrom (maxId T + 1) n
        ∧ maxId (us.foldl (fun t uid => processUid cols t uid
            (df.filter (fun r => dfRowUid cols r == uid))) T) = maxId T + n := by
  intro us
  induction us with
  | nil =>
    intro T
    refine ⟨0, ?_, rfl⟩
    simp [blockFrom]
  | cons u us ih =>
    intro T
    rw [List.foldl_cons]
    obtain ⟨n1, h1, hm1⟩ := processUid_ids cols T u (df.filter (fun r => dfRowUid cols r == u))
    obtain ⟨n2, h2, hm2⟩ := ih (processUid cols T u (df.filter (fun r => dfRowUid cols r == u)))
    refine ⟨n1 + n2, ?_, ?_⟩
    · rw [h2, h1, hm1, List.append_assoc]
      have hb : maxId T + n1 + 1 = maxId T + 1 + n1 := by omega
      rw [hb, blockFrom_append]
    · rw [hm2, hm1, Nat.add_assoc]

/-- `_upsert_by_id` appends a consecutive block of brand-new
identifiers one past the prior table maximum; the identifier sequence
is otherwise unchanged and the maximum advances by the block
length. -/
theorem upsert_by_id_ids (cols : List String) (T : Table) (df : List DRow) :
    ∃ n, idsOf (upsert_by_id cols T df) = idsOf T ++ blockFrom (maxId T + 1) n
      ∧ maxId (upsert_by_id cols T df) = maxId T + n := by
  rw [upsert_by_id]
  exact upsert_fold_ids cols df (uniqueUids cols df) T

/-- `activeCount` is the fingerprint-refined count at the trivial
fingerprint predicate. -/
theorem activeCount_eq_countP (cols : List String) (k : Option PVal) (S : Table) :
    activeCount cols k S = S.countP (fun r => dbRowUid cols r == k
      && r.is_deleted == false && (fun fp => true) (dbRowFp cols r)) := by
  rw [activeCount]
  apply List.countP_congr
  intro r hr
  simp

/-! ## Claim C3: re-synchronization idempotence -/

/-- **C3** (re-synchronization idempotence).  Over any table whose
surrogate identifiers are unique (the `id INT PRIMARY KEY` column
guarantee), running `_upsert_by_id` a second time with the same
unchanged incoming rows never increases the number of active rows of
any natural key beyond the count after the first run. -/
theorem upsert_by_id_resync (cols : List String) (T : Table) (df : List DRow)
    (k : Option PVal) (hnd : (idsOf T).Nodup) :
    activeCount cols k (upsert_by_id cols (upsert_by_id cols T df) df)
      ≤ activeCount cols k (upsert_by_id cols T df) := by
  obtain ⟨n, hids, _⟩ := upsert_by_id_ids cols T df
  have hnd1 : (idsOf (upsert_by_id cols T df)).Nodup := by
    rw [hids]
    exact ids_block_nodup T n hnd
  rw [activeCount_eq_countP, activeCount_eq_countP,
    upsert_by_id_countP cols (upsert_by_id cols T df) df k (fun fp => true) hnd1]
  by_cases hc : (uniqueUids cols df).contains k = true
  · rw [if_pos hc, upsert_by_id_countP cols T df k (fun fp => true) hnd, if_pos hc]
  · rw [if_neg hc, upsert_by_id_countP cols T df k (fun fp => true) hnd, if_neg hc]

/-- The re-synchronization bound at a concrete instance: one incoming
row for key `"a"` over the empty table, upserted twice. -/
theorem upsert_by_id_resync_witness :
    (idsOf ([] : Table)).Nodup ∧
      activeCount ["_id"] (some (PVal.pStr "a"))
          (upsert_by_id ["_id"] (upsert_by_id ["_id"] [] [[PVal.pStr "a"]])
            [[PVal.pStr "a"]])
        ≤ activeCount ["_id"] (some (PVal.pStr "a"))
            (upsert_by_id ["_id"] [] [[PVal.pStr "a"]]) :=
  ⟨List.nodup_nil,
   upsert_by_id_resync ["_id"] [] [[PVal.pStr "a"]] (some (PVal.pStr "a")) List.nodup_nil⟩

/-! ## Claim C2: per-key fingerprint deduplication -/

/-- A value hit at most once along a list whose images are
duplicate-free. -/
theorem countP_fp_le_one {α : Type} (f : α → String) (v : String) :
    ∀ (l : List α), (l.map f).Nodup → l.countP (fun x => f x == v) ≤ 1 := by
  intro l
  induction l with
  | nil =>
    intro h
    simp
  | cons a l ih =>
    intro h
    rw [List.map_cons, List.nodup_cons] at h
    rw [List.countP_cons]
    by_cases hfa : (f a == v) = true
    · have h0 : l.countP (fun x => f x == v) = 0 := by
        rw [List.countP_eq_zero]
        intro x hx hc
        exact h.1 (by rw [eq_of_beq hfa, ← eq_of_beq hc]; exact List.mem_map_of_mem f hx)
      rw [h0, if_pos hfa]
    · rw [if_neg hfa, Nat.add_zero]
      exact ih h.2

/-- **C2** (counterexample).  The claimed invariant — at most one
active row per natural key and content fingerprint after any
`_upsert_by_id` run — fails when the incoming batch itself carries
two rows with equal fingerprints for one key: neither matches an
existing row, so both take brand-new slots and two identical active
rows result. -/
theorem upsert_by_id_fp_duplicated :
    activeFpCount ["_id", "a"] (some (PVal.pStr "k")) "k||x"
        (upsert_by_id ["_id", "a"] []
          [[PVal.pStr "k", PVal.pStr "x"], [PVal.pStr "k", PVal.pStr "x"]]) = 2 := by
  decide

/-- **C2** (amended).  The per-key deduplication invariant holds for
every incoming batch whose rows for the key carry pairwise distinct
fingerprints (in particular for any batch without exact duplicate
rows per key): if the table held at most one active row for the key
and fingerprint before, it still does after `_upsert_by_id`. -/
theorem upsert_by_id_fp_dedup (cols : List String) (T : Table) (df : List DRow)
    (k : Option PVal) (fp : String) (hnd : (idsOf T).Nodup)
    (hdf : ((df.filter (fun r => dfRowUid cols r == k)).map (dfRowFp cols)).Nodup)
    (hT : activeFpCount cols k fp T ≤ 1) :
    activeFpCount cols k fp (upsert_by_id cols T df) ≤ 1 := by
  have hbr : ∀ S : Table, activeFpCount cols k fp S
      = S.countP (fun r => dbRowUid cols r == k && r.is_deleted == false
        && (fun s => s == fp) (dbRowFp cols r)) := fun S => rfl
  rw [hbr, upsert_by_id_countP cols T df k (fun s => s == fp) hnd]
  by_cases hc : (uniqueUids cols df).contains k = true
  · rw [if_pos hc]
    exact countP_fp_le_one (dfRowFp cols) fp _ hdf
  · rw [if_neg hc, ← hbr]
    exact hT

/-- The amended deduplication invariant at a concrete instance: a
single-row batch over the empty table. -/
theorem upsert_by_id_fp_dedup_witness :
    ((idsOf ([] : Table)).Nodup
      ∧ ((([[PVal.pStr "k", PVal.pStr "x"]] : List DRow).filter
          (fun r => dfRowUid ["_id", "a"] r == some (PVal.pStr "k"))).map
          (dfRowFp ["_id", "a"])).Nodup
      ∧ activeFpCount ["_id", "a"] (some (PVal.pStr "k")) "k||x" [] ≤ 1)
    ∧ activeFpCount ["_id", "a"] (some (PVal.pStr "k")) "k||x"
        (upsert_by_id ["_id", "a"] [] [[PVal.pStr "k", PVal.pStr "x"]]) ≤ 1 :=
  ⟨⟨by decide, by decide, by decide⟩,
   upsert_by_id_fp_dedup ["_id", "a"] [] [[PVal.pStr "k", PVal.pStr "x"]]
     (some (PVal.pStr "k")) "k||x" (by decide) (by decide) (by decide)⟩

/-! ## Claims C7 and C9: physical persistence and identifier allocation -/

/-- Flipping the soft-delete flag under any guard keeps a stored
row's identifier. -/
theorem ite_set_deleted_id (c : Bool) (r : DbRow) :
    (if c then { r with is_deleted := true } else r).id = r.id := by
  split <;> rfl

/-- The deletion sweep never touches the stored identifier
sequence. -/
theorem mark_deleted_documents_ids (cols : List String) (ids : List String) (T : Table) :
    idsOf (mark_deleted_documents cols ids T) = idsOf T := by
  simp only [mark_deleted_documents]
  split
  · split
    · rfl
    · exact idsOf_map _ (fun r => ite_set_deleted_id _ r) T
  · rfl

/-- `_insert_bulk` appends the incoming rows as a consecutive
identifier block one past the current maximum. -/
theorem insert_bulk_ids (T : Table) (df : List DRow) :
    idsOf (insert_bulk T df) = idsOf T ++ blockFrom (maxId T + 1) df.length := by
  simp only [insert_bulk]
  rw [idsOf_append]
  congr 1
  rw [idsOf, List.map_map, blockFrom, ← List.enum_map_fst df, List.map_map]
  apply List.map_congr_left
  intro p hp
  rfl

/-- **C7** (soft-delete only).  No operation of the core removes a
stored row: each run leaves the prior identifier sequence as an
unchanged initial segment — every row keeps its physical slot and
identifier — and at most appends brand-new rows after it.  The
deletion sweep's identifier sequence is exactly unchanged, so its
only effect on stored rows is flag flips. -/
theorem soft_delete_only_law :
    (∀ (cols : List String) (T : Table) (df : List DRow),
      ∃ new, idsOf (upsert_by_id cols T df) = idsOf T ++ new)
    ∧ (∀ (T : Table) (df : List DRow),
      ∃ new, idsOf (insert_bulk T df) = idsOf T ++ new)
    ∧ (∀ (cols : List String) (ids : List String) (T : Table),
      idsOf (mark_deleted_documents cols ids T) = idsOf T)
    ∧ (∀ (dfCols : List String) (dfRows : List DRow) (st : Option DbTableState),
      ∃ new, idsOf (rowsOf (load_dataframe dfCols dfRows st))
        = idsOf (rowsOf st) ++ new) := by
  refine ⟨?_, ?_, mark_deleted_documents_ids, ?_⟩
  · intro cols T df
    obtain ⟨n, hn, _⟩ := upsert_by_id_ids cols T df
    exact ⟨_, hn⟩
  · intro T df
    exact ⟨_, insert_bulk_ids T df⟩
  · intro dfCols dfRows st
    simp only [load_dataframe]
    by_cases h0 : (dfRows.isEmpty || dfCols.isEmpty) = true
    · rw [if_pos h0]
      exact ⟨[], (List.append_nil _).symm⟩
    · rw [if_neg h0]
      cases st with
      | none =>
        by_cases hid : ((dfCols.map sanitize_column_name).contains "_id") = true
        · rw [if_pos hid]
          obtain ⟨n, hn, _⟩ := upsert_by_id_ids (dfCols.map sanitize_column_name) [] dfRows
          exact ⟨_, hn⟩
        · rw [if_neg hid]
          exact ⟨_, insert_bulk_ids [] dfRows⟩
      | some t0 =>
        by_cases hid : ((dfCols.map sanitize_column_name).contains "_id") = true
        · rw [if_pos hid]
          obtain ⟨n, hn, _⟩ := upsert_by_id_ids (dfCols.map sanitize_column_name) t0.rows dfRows
          exact ⟨_, hn⟩
        · rw [if_neg hid]
          exact ⟨_, insert_bulk_ids t0.rows dfRows⟩

/-- **C9** (surrogate identifier allocation).  Brand-new rows always
take identifiers one past the current table-wide maximum: the
reconciler's insertion step appends `MAX(id) + 1` exactly when no
spare slot remains; a whole `_upsert_by_id` run extends the
identifier sequence by one consecutive block starting one past the
prior maximum and advances the maximum by the block length; and
`_insert_bulk` appends a consecutive block starting one past the
prior maximum, one identifier per incoming row.  Identifiers are
therefore monotonically increasing per table. -/
theorem surrogate_id_allocation :
    (∀ (cols : List String) (T : Table) (row : DRow),
      slotStep cols ([], T) row = ([], T ++ [⟨maxId T + 1, row, false⟩]))
    ∧ (∀ (T : Table) (df : List DRow),
      idsOf (insert_bulk T df) = idsOf T ++ blockFrom (maxId T + 1) df.length)
    ∧ (∀ (cols : List String) (T : Table) (df : List DRow),
      ∃ n, idsOf (upsert_by_id cols T df) = idsOf T ++ blockFrom (maxId T + 1) n
        ∧ maxId (upsert_by_id cols T df) = maxId T + n) :=
  ⟨fun cols T row => rfl, insert_bulk_ids, upsert_by_id_ids⟩

end DataMigration
